import Mathlib

/-!
Verification of the gmifs Gemini file server against its specification.

The development shallowly embeds the parts of the Go source that the claims
touch.  Go strings are modelled as `List Char` (the request line, whose length
limit is in bytes, is modelled as `List Nat`), Go maps as association lists
with Go map semantics (set = replace, read of a missing key = zero value),
and fallible operations (a division by zero in `housekeeping`) as `Option`.
-/

namespace Gmifs

/-- Bytes of the CRLF response terminator (`Termination` in gemini.go). -/
def termination : List Char := "\r\n".data

/-- Status code constants from gemini.go. -/
def statusSuccess : Int := 20

/-- StatusRedirectPermanent from gemini.go. -/
def statusRedirectPermanent : Int := 31

/-- StatusTemporaryFailure from gemini.go. -/
def statusTemporaryFailure : Int := 40

/-- StatusServerUnavailable from gemini.go. -/
def statusServerUnavailable : Int := 41

/-- StatusNotFound from gemini.go. -/
def statusNotFound : Int := 51

/-- StatusProxyRequestRefused from gemini.go. -/
def statusProxyRequestRefused : Int := 53

/-- StatusBadRequest from gemini.go. -/
def statusBadRequest : Int := 59

/-- URLMaxBytes from gemini.go. -/
def urlMaxBytes : Nat := 1024

/-- MimeType from gemini.go: the MIME type used for gemtext documents. -/
def mimeTypeGemini : List Char := "text/gemini; charset=utf-8".data

/-- Decimal rendering of a Go int, as the %d verb of fmt.Sprintf produces it. -/
def goItoa (i : Int) : List Char :=
  if i < 0 then '-' :: Nat.toDigits 10 i.natAbs else Nat.toDigits 10 i.natAbs

/-- writer.WriteHeader from gemini.go (lines 395-402): the status line placed
on the wire by the direct connection writer.  Empty META yields
`"<code>\r\n"`, non-empty META yields `"<code> <meta>\r\n"`. -/
def writerWriteHeader (code : Int) (message : List Char) : List Char :=
  if message.length = 0 then goItoa code ++ termination
  else goItoa code ++ ' ' :: (message ++ termination)

/-- WriteHeader from the first iteration of the server (the error.go composite,
lines 485-493).  The Go code assigns the no-META form inside an `if` and then
unconditionally overwrites `header` with the space-joined form; the shadowing
`let` mirrors that overwrite. -/
def legacyWriteHeader (code : Int) (message : List Char) : List Char :=
  let header := if message.length = 0 then goItoa code ++ termination else []
  let header := goItoa code ++ ' ' :: (message ++ termination)
  header

/-- One call a handler makes on a ResponseWriter: WriteHeader or Write. -/
inductive WriterOp where
  | head (code : Int) (meta : List Char)
  | body (bytes : List Char)
  deriving DecidableEq

/-- The mutable state of an Interceptor (interceptor.go): buffered code, META,
body buffer and the two tracking flags.  `NewInterceptor` leaves `Code` and
`Meta` at their Go zero values. -/
structure InterceptorState where
  code : Int
  meta : List Char
  bodyBuf : List Char
  hasHeader : Bool
  hasBody : Bool
  deriving DecidableEq

/-- NewInterceptor from interceptor.go: all fields at their zero values. -/
def newInterceptor : InterceptorState :=
  { code := 0, meta := [], bodyBuf := [], hasHeader := false, hasBody := false }

/-- Effect of one ResponseWriter call on an Interceptor: WriteHeader records
code and META and sets hasHeader; Write appends to the buffer and sets
hasBody (interceptor.go lines 41-52). -/
def interceptorStep (st : InterceptorState) : WriterOp → InterceptorState
  | WriterOp.head c m => { st with hasHeader := true, code := c, meta := m }
  | WriterOp.body b => { st with hasBody := true, bodyBuf := st.bodyBuf ++ b }

/-- State of a fresh Interceptor after a handler performed the given calls. -/
def runOps (ops : List WriterOp) : InterceptorState :=
  ops.foldl interceptorStep newInterceptor

/-- Interceptor.Flush (interceptor.go lines 63-76): FlushHeader then FlushBody,
i.e. WriteHeader(Code, Meta) followed by Write(Body) on the wrapped writer,
with no check of hasHeader or hasBody. -/
def interceptorFlush (st : InterceptorState) : List WriterOp :=
  WriterOp.head st.code st.meta :: WriterOp.body st.bodyBuf :: []

/-- Bytes the direct connection writer (gemini.go `writer`) puts on the wire
for a sequence of ResponseWriter calls. -/
def runDirect (ops : List WriterOp) : List Char :=
  ops.foldl
    (fun acc op =>
      acc ++
        match op with
        | WriterOp.head c m => writerWriteHeader c m
        | WriterOp.body b => b)
    []

/-- The underlying causes wrapped in a GmiError by gemini.go. -/
inductive GErr where
  | emptyRequest
  | emptyRequestURL
  | headerTooLong
  | invalidUtf8
  | invalidHost
  | invalidPath
  | unknownProtocol
  | redirect (target : List Char)
  deriving DecidableEq

/-- The Error() strings of the causes, from the var block of gemini.go.  Note
that the source initialises ErrInvalidUtf8 with the text "gemini: empty
request URL" (a copy-paste slip kept here faithfully). -/
def gerrMsg : GErr → List Char
  | GErr.emptyRequest => "gemini: empty request".data
  | GErr.emptyRequestURL => "gemini: empty request URL".data
  | GErr.headerTooLong => "gemini: header too long".data
  | GErr.invalidUtf8 => "gemini: empty request URL".data
  | GErr.invalidHost => "gemini: empty host".data
  | GErr.invalidPath => "gemini: path error".data
  | GErr.unknownProtocol => "gemini: unknown protocol scheme".data
  | GErr.redirect t => t

/-- GmiError from error.go: a status code together with the wrapped cause. -/
structure GmiErr where
  code : Int
  err : GErr
  deriving DecidableEq

/-- Server.handleRequestError from gemini.go (lines 261-288): empty-request
errors are suppressed; every other GmiError is written as
WriteHeader(code, Error()). -/
def handleRequestError (e : GmiErr) : List WriterOp :=
  if e.err = GErr.emptyRequest then []
  else WriterOp.head e.code (gerrMsg e.err) :: []

/-- Split a path on the slash separator; always returns at least one
(possibly empty) component. -/
def splitOnSlash : List Char → List (List Char)
  | [] => [[]]
  | c :: rest =>
    match splitOnSlash rest with
    | [] => [[]]
    | s :: ss => if c = '/' then [] :: s :: ss else (c :: s) :: ss

/-- Join components with single slashes (inverse of `splitOnSlash` on
slash-free components). -/
def joinSlash : List (List Char) → List Char
  | [] => []
  | s :: [] => s
  | s :: ss => s ++ '/' :: joinSlash ss

/-- The `..` path element. -/
def dotdot : List Char := "..".data

/-- The path components that Go's path.Clean keeps for processing: empty
components (double slashes) and `.` components are dropped. -/
def rawSegs (p : List Char) : List (List Char) :=
  (splitOnSlash p).filter (fun s => decide (s ≠ [] ∧ s ≠ ('.' :: [])))

/-- Stack-based processing of path components, following the documented
semantics of Go's path.Clean: `..` removes the preceding component; a `..`
with nothing before it is dropped in a rooted path and kept in a relative
one.  The accumulator holds already-kept components in reverse order. -/
def cleanSegs (rooted : Bool) : List (List Char) → List (List Char) → List (List Char)
  | stack, [] => stack.reverse
  | stack, seg :: rest =>
    if seg = dotdot then
      match stack with
      | [] => if rooted then cleanSegs rooted [] rest else cleanSegs rooted (dotdot :: []) rest
      | top :: stk =>
        if top = dotdot then cleanSegs rooted (dotdot :: top :: stk) rest
        else cleanSegs rooted stk rest
    else cleanSegs rooted (seg :: stack) rest

/-- Go's path.Clean: shortest lexically equivalent path.  Empty input yields
`.`; a rooted result keeps its leading slash; an empty result is `/` for
rooted inputs and `.` otherwise. -/
def pathClean (p : List Char) : List Char :=
  if p = [] then '.' :: []
  else
    let rooted : Bool := decide (p.head? = some '/')
    let segs := cleanSegs rooted [] (rawSegs p)
    if rooted then (if segs = [] then '/' :: [] else '/' :: joinSlash segs)
    else (if segs = [] then '.' :: [] else joinSlash segs)

/-- Go's strings.TrimRight(p, "/"): remove every trailing slash. -/
def trimRightSlash (p : List Char) : List Char :=
  (p.reverse.dropWhile (fun c => c == '/')).reverse

/-- The path contains a `..` element. -/
def hasDotDotSeg (p : List Char) : Prop := dotdot ∈ splitOnSlash p

instance (p : List Char) : Decidable (hasDotDotSeg p) := by
  unfold hasDotDotSeg; infer_instance

/-- validateRequest from gemini.go (lines 338-356), over the parsed URL parts:
non-gemini scheme is refused, an empty host and an unclean path (other than a
clean path with trailing slashes) are bad requests, an empty path is a
permanent redirect to "./" + path. -/
def validateRequest (scheme host path : List Char) : Option GmiErr :=
  if scheme ≠ [] ∧ scheme ≠ "gemini".data then
    some { code := statusProxyRequestRefused, err := GErr.unknownProtocol }
  else if host = [] then some { code := statusBadRequest, err := GErr.invalidHost }
  else if path = [] then
    some { code := statusRedirectPermanent, err := GErr.redirect ('.' :: '/' :: path) }
  else if pathClean path ≠ path ∧ pathClean path ≠ trimRightSlash path then
    some { code := statusBadRequest, err := GErr.invalidPath }
  else none

/-- A UTF-8 continuation byte (0x80..0xBF). -/
def isCont (b : Nat) : Bool := 0x80 ≤ b && b ≤ 0xBF

/-- Go's utf8.ValidString over the raw bytes: standard UTF-8 acceptance with
the surrogate and overlong exclusions of unicode/utf8's acceptRanges table. -/
def utf8Valid : List Nat → Bool
  | [] => true
  | b :: rest =>
    if b ≤ 0x7F then utf8Valid rest
    else if b < 0xC2 then false
    else if b ≤ 0xDF then
      match rest with
      | [] => false
      | b1 :: r => isCont b1 && utf8Valid r
    else if b ≤ 0xEF then
      match rest with
      | b1 :: b2 :: r =>
        (if b = 0xE0 then 0xA0 ≤ b1 && b1 ≤ 0xBF
         else if b = 0xED then 0x80 ≤ b1 && b1 ≤ 0x9F
         else isCont b1) && isCont b2 && utf8Valid r
      | _ => false
    else if b ≤ 0xF4 then
      match rest with
      | b1 :: b2 :: b3 :: r =>
        (if b = 0xF0 then 0x90 ≤ b1 && b1 ≤ 0xBF
         else if b = 0xF4 then 0x80 ≤ b1 && b1 ≤ 0x8F
         else isCont b1) && isCont b2 && isCont b3 && utf8Valid r
      | _ => false
    else false

/-- The three request-line checks of readHeader (gemini.go lines 310-336) on
the whitespace-trimmed request line, in source order: non-empty, then length
at most URLMaxBytes, then valid UTF-8. -/
def readHeaderChecks (line : List Nat) : Option GmiErr :=
  if line = [] then some { code := statusBadRequest, err := GErr.emptyRequestURL }
  else if urlMaxBytes < line.length then
    some { code := statusBadRequest, err := GErr.headerTooLong }
  else if !(utf8Valid line) then some { code := statusBadRequest, err := GErr.invalidUtf8 }
  else none

/-- Wire bytes the engine produces for a request line that fails the
readHeader checks (readHeader composed with handleRequestError and the direct
writer). -/
def badLineResponse (line : List Nat) : List Char :=
  match readHeaderChecks line with
  | some e => runDirect (handleRequestError e)
  | none => []

/-- Lookup in a Go map modelled as an association list (first match). -/
def mapLookup {α β : Type} [DecidableEq α] : List (α × β) → α → Option β
  | [], _ => none
  | e :: m, k => if e.1 = k then some e.2 else mapLookup m k

/-- Go's delete(m, k): remove every binding of k. -/
def mapErase {α β : Type} [DecidableEq α] : List (α × β) → α → List (α × β)
  | [], _ => []
  | e :: m, k => if e.1 = k then mapErase m k else e :: mapErase m k

/-- Go's m[k] = v: bind k to v, replacing any previous binding. -/
def mapInsert {α β : Type} [DecidableEq α] (m : List (α × β)) (k : α) (v : β) :
    List (α × β) :=
  (k, v) :: mapErase m k

/-- The cache of the middleware package (README composite, lines 62-70): two
content maps, the integer-indexed ring tracker, the ring counter and the
fixed capacity. -/
structure CacheState where
  documents : List (List Char × List Char)
  mimeTypes : List (List Char × List Char)
  tracker : List (Int × List Char)
  index : Int
  size : Int
  deriving DecidableEq

/-- cache.housekeeping (README composite, lines 80-92).  When the tracker is
at capacity the key stored at the current ring slot is evicted from both
content maps and the slot is cleared (a Go map read of a missing slot yields
the zero value "").  The new key is then stored at the slot and the counter
advances modulo the capacity; the modulo panics on capacity zero, modelled
as `none`. -/
def housekeeping (c : CacheState) (key : List Char) : Option CacheState :=
  let c1 :=
    if c.size ≤ (c.tracker.length : Int) then
      let expired := (mapLookup c.tracker c.index).getD []
      { c with
        documents := mapErase c.documents expired
        mimeTypes := mapErase c.mimeTypes expired
        tracker := mapErase c.tracker c.index }
    else c
  if c1.size = 0 then none
  else
    some
      { c1 with
        tracker := mapInsert c1.tracker c1.index key
        index := (c1.index + 1).tmod c1.size }

/-- cache.Write (README composite, lines 94-104): a no-op when the capacity
is not positive, otherwise housekeeping followed by storing body and MIME. -/
def cacheWrite (c : CacheState) (key mimeType doc : List Char) : Option CacheState :=
  if c.size ≤ 0 then some c
  else
    (housekeeping c key).map fun c1 =>
      { c1 with
        documents := mapInsert c1.documents key doc
        mimeTypes := mapInsert c1.mimeTypes key mimeType }

/-- cache.Read (README composite, lines 72-78): a hit requires the key in
both content maps; the state is untouched. -/
def cacheRead (c : CacheState) (key : List Char) : Option (List Char × List Char) :=
  match mapLookup c.documents key, mapLookup c.mimeTypes key with
  | some doc, some mt => some (doc, mt)
  | _, _ => none

/-- Cache(n) from the README composite (lines 106-113): empty maps, counter
zero, capacity n. -/
def mkCache (n : Int) : CacheState :=
  { documents := [], mimeTypes := [], tracker := [], index := 0, size := n }

/-- A sequence of cache.Write calls, propagating the panic case. -/
def writeSeq (c : CacheState) : List (List Char × List Char × List Char) → Option CacheState
  | [] => some c
  | t :: rest =>
    match cacheWrite c t.1 t.2.1 t.2.2 with
    | none => none
    | some c1 => writeSeq c1 rest

/-- cache.middleware (README composite, lines 115-134) for one request: on a
hit, answer from the cache and leave the state alone; on a miss, run the
downstream handler through a fresh Interceptor, store the response if and
only if a header was captured with code StatusSuccess, then flush.  Returns
the state after the request and the calls made on the real writer. -/
def cacheMiddleware (c : CacheState) (next : List WriterOp) (key : List Char) :
    Option CacheState × List WriterOp :=
  match cacheRead c key with
  | some (doc, mt) =>
    (some c, WriterOp.head statusSuccess mt :: WriterOp.body doc :: [])
  | none =>
    let st := runOps next
    let c1 :=
      if st.hasHeader ∧ st.code = statusSuccess then cacheWrite c key st.meta st.bodyBuf
      else some c
    (c1, interceptorFlush st)

/-- Go's path.Join on two elements: empty elements are dropped and the result
is Cleaned; all-empty input yields the empty path. -/
def pathJoin (a b : List Char) : List Char :=
  if a = [] ∧ b = [] then []
  else if a = [] then pathClean b
  else if b = [] then pathClean a
  else pathClean (a ++ '/' :: b)

/-- Go's path.Ext: the suffix starting at the final dot of the final
slash-separated element, empty when that element has no dot. -/
def pathExt (p : List Char) : List Char :=
  let lastRev := p.reverse.takeWhile (fun c => !(c == '/'))
  if lastRev.contains '.' then '.' :: (lastRev.takeWhile (fun c => !(c == '.'))).reverse
  else []

/-- getMimeType from fileserver.go (lines 93-98), with the OS MIME database
(mime.TypeByExtension, an external collaborator) passed as a function. -/
def getMimeType (mimeDB : List Char → List Char) (fullpath : List Char) : List Char :=
  if pathExt fullpath ≠ ".gmi".data then mimeDB (pathExt fullpath) else mimeTypeGemini

/-- Go's filepath.Dir on slash-separated paths: everything up to and including
the final separator, Cleaned; `.` when there is no separator. -/
def filepathDir (p : List Char) : List Char :=
  pathClean ((p.reverse.dropWhile (fun c => !(c == '/'))).reverse)

/-- Stat result: whether the path names a directory. -/
structure FileInfo where
  isDir : Bool
  deriving DecidableEq

/-- The filesystem as the fileserver sees it: Stat (None = the stat error
os.IsNotExist), ReadDir yielding the entry names in filesystem order, and
reading a whole file. -/
structure FS where
  stat : List Char → Option FileInfo
  readDirNames : List Char → Option (List (List Char))
  readFileBytes : List Char → Option (List Char)

/-- The error cases of fullPath/readFile in fileserver.go. -/
inductive FsErr where
  | statErr (path : List Char)
  | dirWithoutIndex
  | unsupportedFileType
  | openErr (path : List Char)
  deriving DecidableEq

/-- The Error() text of the fileserver error cases.  The stat/open messages
render Go's wrapped os.PathError in the shape "path: stat <p>: no such file
or directory"; only their role as NotFound META matters to the claims. -/
def fsErrMsg : FsErr → List Char
  | FsErr.statErr p => "path: stat ".data ++ p ++ ": no such file or directory".data
  | FsErr.dirWithoutIndex => "path without index.gmi not allowed".data
  | FsErr.unsupportedFileType => "disabled/unsupported file type".data
  | FsErr.openErr p => "file: open ".data ++ p ++ ": no such file or directory".data

/-- fullPath from fileserver.go (lines 54-72): join root and request path,
stat, and for a directory redirect to its index.gmi or report
ErrDirWithoutIndexFile. -/
def fullPath (fs : FS) (root requestPath : List Char) : List Char × Option FsErr :=
  let fp := pathJoin root requestPath
  match fs.stat fp with
  | none => ([], some (FsErr.statErr fp))
  | some info =>
    if info.isDir then
      let subDirIndex := pathJoin fp "index.gmi".data
      match fs.stat subDirIndex with
      | none => (fp, some FsErr.dirWithoutIndex)
      | some _ => (subDirIndex, none)
    else (fp, none)

/-- listDirectory from fileserver.go (lines 100-125): the autoindex body.
For a non-root relative path the heading is "Index of <idx>/" with idx the
trailing-slash-trimmed path, followed by a parent link; every entry is
listed as a gemtext link line. -/
def listDirectory (fs : FS) (fullpath relpath : List Char) :
    Option (List Char × List Char) :=
  match fs.readDirNames fullpath with
  | none => none
  | some files =>
    let idx := trimRightSlash relpath
    let parent := filepathDir idx
    let headerOut :=
      if relpath ≠ "/".data then
        ("Index of ".data ++ idx ++ "/\n\n".data) ++
          ("=> ".data ++ parent ++ " ..\n".data)
      else "Index of ".data ++ relpath ++ "\n\n".data
    let entries :=
      files.foldl
        (fun acc name =>
          acc ++
            (if relpath = "/".data then "=> ".data ++ name ++ "\n".data
             else "=> ".data ++ relpath ++ '/' :: name ++ " ".data ++ name ++ "\n".data))
        []
    some (headerOut ++ entries, mimeTypeGemini)

/-- readFile from fileserver.go (lines 74-91): resolve the MIME type (empty
means unsupported), then read the file. -/
def readFileFs (fs : FS) (mimeDB : List Char → List Char) (fp : List Char) :
    Except FsErr (List Char × List Char) :=
  if getMimeType mimeDB fp = [] then Except.error FsErr.unsupportedFileType
  else
    match fs.readFileBytes fp with
    | none => Except.error (FsErr.openErr fp)
    | some data => Except.ok (data, getMimeType mimeDB fp)

/-- Serve from fileserver.go (lines 23-52): the terminal file-serving handler
for one request path, as the calls it makes on its ResponseWriter. -/
def serve (fs : FS) (mimeDB : List Char → List Char) (root : List Char)
    (autoindex : Bool) (requestPath : List Char) : List WriterOp :=
  match fullPath fs root requestPath with
  | (fp, some e) =>
    if e = FsErr.dirWithoutIndex ∧ autoindex then
      match listDirectory fs fp requestPath with
      | none => WriterOp.head statusNotFound ("list directory error".data) :: []
      | some (body, mt) =>
        WriterOp.head statusSuccess mt :: WriterOp.body body :: []
    else WriterOp.head statusNotFound (fsErrMsg e) :: []
  | (fp, none) =>
    match readFileFs fs mimeDB fp with
    | Except.error e2 => WriterOp.head statusNotFound (fsErrMsg e2) :: []
    | Except.ok (data, mt) =>
      WriterOp.head statusSuccess mt :: WriterOp.body data :: []

/-- Connection-engine state: tokens held in the semaphore channel of
handleConnectionQueue (gemini.go lines 214-224) and the number of live
per-connection workers. -/
structure ConnState where
  sem : Nat
  live : Nat
  deriving DecidableEq

/-- The synchronisation steps of the connection engine.  The queue drainer
sends one token into the capacity-MaxOpenConns semaphore channel (blocking
while it is full) and only then spawns the worker; a worker's deferred
release receives one token back when the worker finishes
(gemini.go lines 214-230). -/
inductive ConnStep (maxConns : Nat) : ConnState → ConnState → Prop where
  | acquireSpawn {s : ConnState} :
      s.sem < maxConns → ConnStep maxConns s { sem := s.sem + 1, live := s.live + 1 }
  | finish {s : ConnState} :
      0 < s.live → ConnStep maxConns s { sem := s.sem - 1, live := s.live - 1 }

/-- States the connection engine can reach from the idle state. -/
inductive ConnReachable (maxConns : Nat) : ConnState → Prop where
  | init : ConnReachable maxConns { sem := 0, live := 0 }
  | step {s t : ConnState} :
      ConnReachable maxConns s → ConnStep maxConns s t → ConnReachable maxConns t

/-- A ResponseWriter call that is a body write, not a header write. -/
def isBodyOp : WriterOp → Bool
  | WriterOp.head _ _ => false
  | WriterOp.body _ => true

/-- The keys of an association-list map. -/
def keysOf {α β : Type} (m : List (α × β)) : List α := m.map (fun e => e.1)

/-- The values of an association-list map. -/
def valsOf {α β : Type} (m : List (α × β)) : List β := m.map (fun e => e.2)

/-- The documents map after writing the given (key, MIME, body) triples in
order into an empty cache of sufficient capacity: newest first. -/
def docsOf (ts : List (List Char × List Char × List Char)) :
    List (List Char × List Char) :=
  (ts.map (fun t => (t.1, t.2.2))).reverse

/-- The mimeTypes map after writing the given triples in order. -/
def mimesOf (ts : List (List Char × List Char × List Char)) :
    List (List Char × List Char) :=
  (ts.map (fun t => (t.1, t.2.1))).reverse

/-- The ring tracker after writing the given triples in order: slot i holds
the key of the (i+1)-th write. -/
def trackerOf (ts : List (List Char × List Char × List Char)) :
    List (Int × List Char) :=
  (ts.enum.map (fun it => ((it.1 : Int), it.2.1))).reverse

/-- The exact cache state after writing the given triples in order into
Cache(n), while no eviction has happened yet. -/
def stateOf (n : Nat) (ts : List (List Char × List Char × List Char)) : CacheState :=
  { documents := docsOf ts
    mimeTypes := mimesOf ts
    tracker := trackerOf ts
    index := (ts.length : Int).tmod (n : Int)
    size := (n : Int) }

/-- The structural invariant of a capacity-n cache reachable from Cache(n):
the tracker occupies the slots 0..len-1 exactly, the counter points at the
next slot while the ring is filling, and every stored key is referenced by
some slot. -/
structure CacheInv (n : Nat) (c : CacheState) : Prop where
  size_eq : c.size = (n : Int)
  len_le : c.tracker.length ≤ n
  slots_nodup : (keysOf c.tracker).Nodup
  slots_iff : ∀ s : Int, s ∈ keysOf c.tracker ↔ 0 ≤ s ∧ s < (c.tracker.length : Int)
  index_low : c.tracker.length < n → c.index = (c.tracker.length : Int)
  index_range : 0 ≤ c.index ∧ c.index < (n : Int)
  doc_nodup : (keysOf c.documents).Nodup
  mime_nodup : (keysOf c.mimeTypes).Nodup
  doc_sub : ∀ k, k ∈ keysOf c.documents → k ∈ valsOf c.tracker
  mime_sub : ∀ k, k ∈ keysOf c.mimeTypes → k ∈ valsOf c.tracker

/-- The state cache.Write produces when the capacity is positive, as a total
function (proof helper; `cacheWrite_pos` relates it to `cacheWrite`). -/
def cacheWriteStep (c : CacheState) (key mt doc : List Char) : CacheState :=
  { documents :=
      mapInsert
        (if c.size ≤ (c.tracker.length : Int) then
          mapErase c.documents ((mapLookup c.tracker c.index).getD [])
        else c.documents) key doc
    mimeTypes :=
      mapInsert
        (if c.size ≤ (c.tracker.length : Int) then
          mapErase c.mimeTypes ((mapLookup c.tracker c.index).getD [])
        else c.mimeTypes) key mt
    tracker :=
      mapInsert
        (if c.size ≤ (c.tracker.length : Int) then mapErase c.tracker c.index
         else c.tracker) c.index key
    index := (c.index + 1).tmod c.size
    size := c.size }

/-- A two-directory filesystem used as concrete input: the directory
/srv/docs exists, has no index.gmi, and holds one entry. -/
def fsDemo : FS where
  stat := fun p => if p = "/srv/docs".data then some { isDir := true } else none
  readDirNames := fun p =>
    if p = "/srv/docs".data then some ("a.gmi".data :: []) else none
  readFileBytes := fun _ => none

/-- A MIME database that knows no extension. -/
def mimeDemo : List Char → List Char := fun _ => []

/-! ## Association-list map lemmas -/

theorem mapLookup_none_of_not_mem {α β : Type} [DecidableEq α] (k : α)
    (m : List (α × β)) (h : k ∉ keysOf m) : mapLookup m k = none := by
  induction m with
  | nil => rfl
  | cons e m ih =>
    have h1 : e.1 ≠ k := by
      intro he
      exact h (by simp [keysOf, he])
    have h2 : k ∉ keysOf m := by
      intro hm
      apply h
      simp [keysOf] at hm ⊢
      exact Or.inr hm
    simp [mapLookup, h1, ih h2]

theorem mem_keysOf_of_mem {α β : Type} {k : α} {v : β} {m : List (α × β)}
    (h : (k, v) ∈ m) : k ∈ keysOf m :=
  List.mem_map_of_mem (fun e => e.1) h

theorem mapLookup_of_mem_nodup {α β : Type} [DecidableEq α] {k : α} {v : β}
    (m : List (α × β)) (hn : (keysOf m).Nodup) (hm : (k, v) ∈ m) :
    mapLookup m k = some v := by
  induction m with
  | nil => cases hm
  | cons e m ih =>
    rw [show keysOf (e :: m) = e.1 :: keysOf m from rfl, List.nodup_cons] at hn
    rcases List.mem_cons.mp hm with he | hmem
    · rw [← he]
      simp [mapLookup]
    · have hne : e.1 ≠ k := by
        intro hke
        apply hn.1
        rw [hke]
        exact mem_keysOf_of_mem hmem
      simp [mapLookup, hne, ih hn.2 hmem]

theorem mapLookup_isSome_of_mem {α β : Type} [DecidableEq α] {k : α}
    (m : List (α × β)) (h : k ∈ keysOf m) :
    ∃ v, mapLookup m k = some v ∧ (k, v) ∈ m := by
  induction m with
  | nil => simp [keysOf] at h
  | cons e m ih =>
    by_cases hk : e.1 = k
    · refine ⟨e.2, by simp [mapLookup, hk], ?_⟩
      rw [← hk]
      exact List.mem_cons_self _ _
    · have h2 : k ∈ keysOf m := by
        simp [keysOf] at h ⊢
        rcases h with h | h
        · exact absurd h.symm hk
        · exact h
      obtain ⟨v, hv, hvm⟩ := ih h2
      exact ⟨v, by simp [mapLookup, hk, hv], List.mem_cons_of_mem _ hvm⟩

theorem mem_mapErase {α β : Type} [DecidableEq α] (e : α × β) (k : α)
    (m : List (α × β)) : e ∈ mapErase m k ↔ e ∈ m ∧ e.1 ≠ k := by
  induction m with
  | nil => simp [mapErase]
  | cons f m ih =>
    by_cases hf : f.1 = k
    · rw [show mapErase (f :: m) k = mapErase m k from by simp [mapErase, hf], ih]
      constructor
      · rintro ⟨h1, h2⟩
        exact ⟨List.mem_cons_of_mem _ h1, h2⟩
      · rintro ⟨h1, h2⟩
        rcases List.mem_cons.mp h1 with he | hm2
        · rw [he] at h2
          exact absurd hf h2
        · exact ⟨hm2, h2⟩
    · rw [show mapErase (f :: m) k = f :: mapErase m k from by simp [mapErase, hf]]
      constructor
      · intro h1
        rcases List.mem_cons.mp h1 with he | hm2
        · subst he
          exact ⟨List.mem_cons_self _ _, hf⟩
        · have h3 := ih.mp hm2
          exact ⟨List.mem_cons_of_mem _ h3.1, h3.2⟩
      · rintro ⟨h1, h2⟩
        rcases List.mem_cons.mp h1 with he | hm2
        · subst he
          exact List.mem_cons_self _ _
        · exact List.mem_cons_of_mem _ (ih.mpr ⟨hm2, h2⟩)

theorem mem_keysOf_mapErase {α β : Type} [DecidableEq α] (s k : α)
    (m : List (α × β)) : s ∈ keysOf (mapErase m k) ↔ s ∈ keysOf m ∧ s ≠ k := by
  constructor
  · intro h
    obtain ⟨e, he, hs⟩ := List.mem_map.mp h
    obtain ⟨hem, hek⟩ := (mem_mapErase e k m).mp he
    subst hs
    exact ⟨mem_keysOf_of_mem (v := e.2) (by simpa using hem), hek⟩
  · rintro ⟨h1, h2⟩
    obtain ⟨e, he, hs⟩ := List.mem_map.mp h1
    subst hs
    exact List.mem_map_of_mem _ ((mem_mapErase e k m).mpr ⟨he, h2⟩)

theorem mapErase_of_not_mem {α β : Type} [DecidableEq α] (k : α)
    (m : List (α × β)) (h : k ∉ keysOf m) : mapErase m k = m := by
  induction m with
  | nil => rfl
  | cons e m ih =>
    have h1 : e.1 ≠ k := by
      intro he
      exact h (by simp [keysOf, he])
    have h2 : k ∉ keysOf m := by
      intro hm
      apply h
      simp [keysOf] at hm ⊢
      exact Or.inr hm
    simp [mapErase, h1, ih h2]

theorem keysOf_mapErase_nodup {α β : Type} [DecidableEq α] (k : α)
    (m : List (α × β)) (h : (keysOf m).Nodup) : (keysOf (mapErase m k)).Nodup := by
  induction m with
  | nil => simp [mapErase, keysOf]
  | cons e m ih =>
    rw [show keysOf (e :: m) = e.1 :: keysOf m from rfl, List.nodup_cons] at h
    by_cases hf : e.1 = k
    · rw [show mapErase (e :: m) k = mapErase m k from by simp [mapErase, hf]]
      exact ih h.2
    · rw [show mapErase (e :: m) k = e :: mapErase m k from by simp [mapErase, hf],
        show keysOf (e :: mapErase m k) = e.1 :: keysOf (mapErase m k) from rfl,
        List.nodup_cons]
      refine ⟨?_, ih h.2⟩
      intro hmem
      exact h.1 ((mem_keysOf_mapErase e.1 k m).mp hmem).1

theorem mapInsert_keys_nodup {α β : Type} [DecidableEq α] (k : α) (v : β)
    (m : List (α × β)) (h : (keysOf m).Nodup) :
    (keysOf (mapInsert m k v)).Nodup := by
  rw [show keysOf (mapInsert m k v) = k :: keysOf (mapErase m k) from rfl,
    List.nodup_cons]
  refine ⟨?_, keysOf_mapErase_nodup k m h⟩
  intro hmem
  exact ((mem_keysOf_mapErase k k m).mp hmem).2 rfl

theorem mapLookup_mapInsert_self {α β : Type} [DecidableEq α] (k : α) (v : β)
    (m : List (α × β)) : mapLookup (mapInsert m k v) k = some v := by
  simp [mapInsert, mapLookup]

theorem mapLookup_mapErase_ne {α β : Type} [DecidableEq α] (j k : α)
    (m : List (α × β)) (h : k ≠ j) : mapLookup (mapErase m j) k = mapLookup m k := by
  induction m with
  | nil => rfl
  | cons e m ih =>
    by_cases hf : e.1 = j
    · have hek : e.1 ≠ k := by
        rw [hf]
        exact fun hj => h hj.symm
      rw [show mapErase (e :: m) j = mapErase m j from by simp [mapErase, hf],
        show mapLookup (e :: m) k = mapLookup m k from by simp [mapLookup, hek]]
      exact ih
    · rw [show mapErase (e :: m) j = e :: mapErase m j from by simp [mapErase, hf]]
      by_cases hk : e.1 = k
      · rw [show mapLookup (e :: mapErase m j) k = some e.2 from by simp [mapLookup, hk],
          show mapLookup (e :: m) k = some e.2 from by simp [mapLookup, hk]]
      · rw [show mapLookup (e :: mapErase m j) k = mapLookup (mapErase m j) k from by
            simp [mapLookup, hk],
          show mapLookup (e :: m) k = mapLookup m k from by simp [mapLookup, hk]]
        exact ih

theorem mapLookup_mapInsert_ne {α β : Type} [DecidableEq α] (j k : α) (v : β)
    (m : List (α × β)) (h : k ≠ j) :
    mapLookup (mapInsert m j v) k = mapLookup m k := by
  have hjk : ¬(j = k) := fun hjk => h hjk.symm
  rw [show mapLookup (mapInsert m j v) k =
      if j = k then some v else mapLookup (mapErase m j) k from rfl,
    if_neg hjk]
  exact mapLookup_mapErase_ne j k m h

/-! ## C1: response-header framing -/

/-- C1: header framing of the response writer.  At the failing input
(code 41, empty META) the first-iteration WriteHeader emits "41 \r\n" — its
empty-META assignment is unconditionally overwritten by the space-joined
form — while the current writer.WriteHeader emits "41\r\n"; in general the
current writer emits exactly "<code> <meta>\r\n" for non-empty META and
"<code>\r\n" (no space before the CRLF) for empty META. -/
theorem c1_writeHeader_framing :
    legacyWriteHeader 41 [] = "41 \r\n".data ∧
    writerWriteHeader 41 [] = "41\r\n".data ∧
    ∀ (code : Int) (meta : List Char),
      writerWriteHeader code meta =
        goItoa code ++ (if meta = [] then [] else ' ' :: meta) ++ termination := by
  refine ⟨by decide, by decide, ?_⟩
  intro code meta
  unfold writerWriteHeader
  cases meta with
  | nil => simp
  | cons c rest => simp

/-! ## C5: request-line validation order -/

/-- C5: every trimmed request line longer than URLMaxBytes bytes fails the
length check of readHeader, which runs before the UTF-8 check, and the
engine answers "59 gemini: header too long\r\n" regardless of the line's
bytes. -/
theorem c5_header_too_long (line : List Nat) (h : urlMaxBytes < line.length) :
    readHeaderChecks line = some { code := statusBadRequest, err := GErr.headerTooLong } ∧
    badLineResponse line = "59 gemini: header too long\r\n".data := by
  have hne : line ≠ [] := by
    intro he
    rw [he] at h
    simp [urlMaxBytes] at h
  have h1 : readHeaderChecks line =
      some { code := statusBadRequest, err := GErr.headerTooLong } := by
    unfold readHeaderChecks
    simp [hne, h]
  refine ⟨h1, ?_⟩
  unfold badLineResponse
  rw [h1]
  decide

/-- Witness for C5 at a 1025-byte line of 0xFF bytes, which is also invalid
UTF-8: the length check wins. -/
theorem c5_header_too_long_witness :
    urlMaxBytes < (List.replicate 1025 255).length ∧
    utf8Valid (List.replicate 1025 255) = false ∧
    badLineResponse (List.replicate 1025 255) = "59 gemini: header too long\r\n".data := by
  have hlen : urlMaxBytes < (List.replicate 1025 255).length := by
    rw [List.length_replicate]
    decide
  refine ⟨hlen, ?_, (c5_header_too_long (List.replicate 1025 255) hlen).2⟩
  rw [List.replicate_succ]
  decide

/-! ## C7: empty path redirects -/

/-- C7: a request whose scheme is empty or "gemini", whose host is non-empty
and whose path is empty fails validation with StatusRedirectPermanent, and
the emitted status line carries META "./" (the empty path prefixed with
"./"): the wire bytes are "31 ./\r\n". -/
theorem c7_empty_path_redirect (scheme host : List Char)
    (hs : scheme = [] ∨ scheme = "gemini".data) (hh : host ≠ []) :
    validateRequest scheme host [] =
      some { code := statusRedirectPermanent, err := GErr.redirect ("./".data) } ∧
    runDirect (handleRequestError
        { code := statusRedirectPermanent, err := GErr.redirect ("./".data) }) =
      "31 ./\r\n".data := by
  constructor
  · have h1 : ¬(scheme ≠ [] ∧ scheme ≠ "gemini".data) := by
      rcases hs with h | h <;> simp [h]
    unfold validateRequest
    simp [h1, hh]
  · decide

/-- Witness for C7 at scheme "gemini", host "localhost". -/
theorem c7_empty_path_redirect_witness :
    ("gemini".data = ([] : List Char) ∨ "gemini".data = "gemini".data) ∧
    "localhost".data ≠ ([] : List Char) ∧
    validateRequest ("gemini".data) ("localhost".data) [] =
      some { code := statusRedirectPermanent, err := GErr.redirect ("./".data) } :=
  ⟨Or.inr rfl, by decide,
    (c7_empty_path_redirect ("gemini".data) ("localhost".data) (Or.inr rfl) (by decide)).1⟩

/-! ## C8: worker bound -/

theorem connReachable_inv (maxConns : Nat) (s : ConnState)
    (h : ConnReachable maxConns s) : s.live ≤ s.sem ∧ s.sem ≤ maxConns := by
  induction h with
  | init => exact ⟨Nat.le_refl 0, Nat.zero_le _⟩
  | step hr hs ih =>
    cases hs with
    | acquireSpawn hlt => exact ⟨Nat.succ_le_succ ih.1, hlt⟩
    | finish hl =>
      exact ⟨Nat.sub_le_sub_right ih.1 1, Nat.le_trans (Nat.sub_le _ _) ih.2⟩

/-- C8: in every state the connection engine can reach, the number of live
per-connection workers is at most MaxOpenConns: each worker is spawned only
after a slot of the capacity-MaxOpenConns semaphore is acquired, and the
slot is released only when the worker finishes. -/
theorem c8_workers_bounded (maxConns : Nat) (s : ConnState)
    (h : ConnReachable maxConns s) : s.live ≤ maxConns :=
  Nat.le_trans (connReachable_inv maxConns s h).1 (connReachable_inv maxConns s h).2

/-- Witness for C8: with MaxOpenConns = 2, the state after one spawn is
reachable and its worker count respects the bound. -/
theorem c8_workers_bounded_witness :
    ConnReachable 2 { sem := 1, live := 1 } ∧
    ConnState.live { sem := 1, live := 1 } ≤ 2 := by
  have hr : ConnReachable 2 { sem := 1, live := 1 } :=
    ConnReachable.step ConnReachable.init (ConnStep.acquireSpawn (by decide))
  exact ⟨hr, c8_workers_bounded 2 { sem := 1, live := 1 } hr⟩

/-! ## C9: zero-capacity cache -/

/-- C9: with non-positive capacity, cache.Write returns without modifying the
state for every key, MIME and body, and the ring modulo of housekeeping —
which at capacity zero would be a division by zero — is never evaluated:
the guard in Write is exactly what keeps Write total. -/
theorem c9_zero_capacity_write_noop (c : CacheState) (key mt doc : List Char)
    (h : c.size ≤ 0) :
    cacheWrite c key mt doc = some c ∧
    (c.size = 0 → housekeeping c key = none) := by
  constructor
  · simp [cacheWrite, h]
  · intro h0
    unfold housekeeping
    by_cases hb : c.size ≤ (c.tracker.length : Int) <;> simp [hb, h0]

/-- Witness for C9 at the cache constructed with capacity 0. -/
theorem c9_zero_capacity_write_noop_witness :
    (mkCache 0).size ≤ 0 ∧
    (cacheWrite (mkCache 0) ("/a".data) mimeTypeGemini ("hi".data) = some (mkCache 0) ∧
      ((mkCache 0).size = 0 → housekeeping (mkCache 0) ("/a".data) = none)) :=
  ⟨by decide,
    c9_zero_capacity_write_noop (mkCache 0) ("/a".data) mimeTypeGemini ("hi".data) (by decide)⟩

/-! ## C10: flush without a header -/

theorem foldl_bodyOnly (ops : List WriterOp) :
    (∀ op ∈ ops, isBodyOp op = true) →
    ∀ st : InterceptorState,
      (ops.foldl interceptorStep st).code = st.code ∧
      (ops.foldl interceptorStep st).meta = st.meta ∧
      (ops.foldl interceptorStep st).hasHeader = st.hasHeader := by
  induction ops with
  | nil => exact fun _ st => ⟨rfl, rfl, rfl⟩
  | cons op rest ih =>
    intro h st
    have hop := h op (List.mem_cons_self _ _)
    have hrest : ∀ o ∈ rest, isBodyOp o = true := fun o ho => h o (List.mem_cons_of_mem _ ho)
    cases op with
    | head c m => simp [isBodyOp] at hop
    | body b =>
      simpa only [List.foldl_cons] using
        ih hrest { st with hasBody := true, bodyBuf := st.bodyBuf ++ b }

/-- C10: if the handler run through an Interceptor never calls WriteHeader,
Flush still writes the zero-value header (code 0, empty META) to the wrapped
writer, so a direct connection writer underneath emits the malformed line
"0\r\n" followed by whatever body was buffered. -/
theorem c10_flush_without_header (ops : List WriterOp)
    (h : ∀ op ∈ ops, isBodyOp op = true) :
    (runOps ops).hasHeader = false ∧
    runDirect (interceptorFlush (runOps ops)) = "0\r\n".data ++ (runOps ops).bodyBuf := by
  obtain ⟨hc, hm, hh⟩ := foldl_bodyOnly ops h newInterceptor
  have hh0 : (runOps ops).hasHeader = false := by
    unfold runOps
    rw [hh]
    rfl
  refine ⟨hh0, ?_⟩
  have hc0 : (runOps ops).code = 0 := by
    unfold runOps
    rw [hc]
    rfl
  have hm0 : (runOps ops).meta = [] := by
    unfold runOps
    rw [hm]
    rfl
  unfold interceptorFlush runDirect
  rw [hc0, hm0]
  have hw : writerWriteHeader 0 [] = "0\r\n".data := by decide
  simp [hw]

/-- Witness for C10 at a handler that only writes a body. -/
theorem c10_flush_without_header_witness :
    (∀ op ∈ (WriterOp.body ("hi".data) :: []), isBodyOp op = true) ∧
    ((runOps (WriterOp.body ("hi".data) :: [])).hasHeader = false ∧
      runDirect (interceptorFlush (runOps (WriterOp.body ("hi".data) :: []))) =
        "0\r\n".data ++ (runOps (WriterOp.body ("hi".data) :: [])).bodyBuf) :=
  ⟨by decide, c10_flush_without_header _ (by decide)⟩

/-! ## C4: success-only insertion -/

theorem housekeeping_some (c : CacheState) (key : List Char) (h : c.size ≠ 0) :
    ∃ c1, housekeeping c key = some c1 := by
  unfold housekeeping
  by_cases hb : c.size ≤ (c.tracker.length : Int) <;> simp [hb, h]

theorem cacheWrite_lookup (c : CacheState) (key mt doc : List Char)
    (h : 0 < c.size) :
    ∃ c1, cacheWrite c key mt doc = some c1 ∧
      mapLookup c1.documents key = some doc ∧
      mapLookup c1.mimeTypes key = some mt := by
  have hn0 : ¬ c.size ≤ 0 := not_le.mpr h
  obtain ⟨c2, hc2⟩ := housekeeping_some c key (by omega)
  refine ⟨{ c2 with
      documents := mapInsert c2.documents key doc
      mimeTypes := mapInsert c2.mimeTypes key mt }, ?_, ?_, ?_⟩
  · unfold cacheWrite
    rw [if_neg hn0, hc2]
    rfl
  · exact mapLookup_mapInsert_self key doc c2.documents
  · exact mapLookup_mapInsert_self key mt c2.mimeTypes

/-- C4: on a miss, the cache middleware stores the response if and only if
the Interceptor captured a header with code StatusSuccess: with no header or
any other code the state is untouched, and in the Success case the state is
exactly a cache.Write of the intercepted (META, body), which (at positive
capacity) makes the entry retrievable.  On a hit nothing is inserted
either. -/
theorem c4_cache_store_iff_success (c : CacheState) (next : List WriterOp)
    (key : List Char) :
    (∀ doc mt, cacheRead c key = some (doc, mt) →
      cacheMiddleware c next key =
        (some c, WriterOp.head statusSuccess mt :: WriterOp.body doc :: [])) ∧
    (cacheRead c key = none →
      ¬((runOps next).hasHeader = true ∧ (runOps next).code = statusSuccess) →
      cacheMiddleware c next key = (some c, interceptorFlush (runOps next))) ∧
    (cacheRead c key = none →
      (runOps next).hasHeader = true → (runOps next).code = statusSuccess →
      cacheMiddleware c next key =
          (cacheWrite c key (runOps next).meta (runOps next).bodyBuf,
            interceptorFlush (runOps next)) ∧
        (0 < c.size → ∃ c1,
          cacheWrite c key (runOps next).meta (runOps next).bodyBuf = some c1 ∧
          mapLookup c1.documents key = some (runOps next).bodyBuf ∧
          mapLookup c1.mimeTypes key = some (runOps next).meta)) := by
  refine ⟨?_, ?_, ?_⟩
  · intro doc mt hhit
    unfold cacheMiddleware
    rw [hhit]
  · intro hmiss hns
    unfold cacheMiddleware
    rw [hmiss]
    simp only []
    rw [if_neg hns]
  · intro hmiss hhdr hcode
    refine ⟨?_, fun hsz => cacheWrite_lookup c key (runOps next).meta (runOps next).bodyBuf hsz⟩
    unfold cacheMiddleware
    rw [hmiss]
    simp only []
    rw [if_pos ⟨hhdr, hcode⟩]

/-- Witness for C4 at a one-slot cache, a missing key and a Success
response. -/
theorem c4_cache_store_iff_success_witness :
    cacheRead (mkCache 1) ("/a".data) = none ∧
    (runOps (WriterOp.head statusSuccess mimeTypeGemini :: WriterOp.body ("hi".data) :: [])).hasHeader = true ∧
    (runOps (WriterOp.head statusSuccess mimeTypeGemini :: WriterOp.body ("hi".data) :: [])).code = statusSuccess ∧
    (0 < (mkCache 1).size) ∧
    (∃ c1,
      cacheWrite (mkCache 1) ("/a".data)
          (runOps (WriterOp.head statusSuccess mimeTypeGemini :: WriterOp.body ("hi".data) :: [])).meta
          (runOps (WriterOp.head statusSuccess mimeTypeGemini :: WriterOp.body ("hi".data) :: [])).bodyBuf = some c1 ∧
      mapLookup c1.documents ("/a".data) =
        some (runOps (WriterOp.head statusSuccess mimeTypeGemini :: WriterOp.body ("hi".data) :: [])).bodyBuf ∧
      mapLookup c1.mimeTypes ("/a".data) =
        some (runOps (WriterOp.head statusSuccess mimeTypeGemini :: WriterOp.body ("hi".data) :: [])).meta) :=
  ⟨by decide, by decide, by decide, by decide,
    ((c4_cache_store_iff_success (mkCache 1)
        (WriterOp.head statusSuccess mimeTypeGemini :: WriterOp.body ("hi".data) :: [])
        ("/a".data)).2.2 (by decide) (by decide) (by decide)).2 (by decide)⟩

/-! ## C6: autoindex listing heading -/

theorem trimRightSlash_closed_form (D : List Char) (c : Char) (r : List Char)
    (hDr : D.reverse = c :: r) (hc : c ≠ '/') :
    trimRightSlash ('/' :: D ++ '/' :: []) = '/' :: D := by
  unfold trimRightSlash
  have h1 : ('/' :: D ++ '/' :: []).reverse = '/' :: (D.reverse ++ '/' :: []) := by
    simp
  rw [h1, hDr]
  have hcb : (c == '/') = false := by
    simp [hc]
  rw [show ('/' :: ((c :: r) ++ '/' :: [])).dropWhile (fun x => x == '/') =
      ((c :: r) ++ '/' :: []).dropWhile (fun x => x == '/') from by
        simp [List.dropWhile_cons]]
  rw [show ((c :: r) ++ '/' :: []).dropWhile (fun x => x == '/') =
      (c :: r) ++ '/' :: [] from by
        simp [List.dropWhile_cons, hcb]]
  have hD : D = (c :: r).reverse := by
    rw [← hDr, List.reverse_reverse]
  rw [hD]
  simp

/-- C6 counterexample: for the directory "docs" under root "/srv", with
autoindex on and no index.gmi, the served body starts with
"Index of /docs/\n\n" (trailing slash after the directory name), so it does
not begin with the "Index of /docs\n\n" stated by the claim. -/
theorem c6_index_listing_counterexample :
    serve fsDemo mimeDemo ("/srv".data) true ("/docs/".data) =
      WriterOp.head statusSuccess mimeTypeGemini ::
        WriterOp.body ("Index of /docs/\n\n=> / ..\n=> /docs//a.gmi a.gmi\n".data) :: [] ∧
    ¬(("Index of /docs/\n\n=> / ..\n=> /docs//a.gmi a.gmi\n".data).take
        ("Index of /docs\n\n".data).length = "Index of /docs\n\n".data) := by
  constructor
  · decide
  · decide

/-- C6 (amended): for every directory D under root that has no index.gmi,
with autoindex enabled, a request for /D/ yields StatusSuccess, MIME
"text/gemini; charset=utf-8", and a body beginning with the bytes
"Index of /D/\n\n" — the code appends a slash to the trimmed directory
name before the blank line. -/
theorem c6_index_listing_amended (fs : FS) (mimeDB : List Char → List Char)
    (root D : List Char) (files : List (List Char))
    (hD0 : D ≠ []) (hDlast : D.getLast? ≠ some '/')
    (hdir : fs.stat (pathJoin root ('/' :: D ++ '/' :: [])) = some { isDir := true })
    (hidx : fs.stat (pathJoin (pathJoin root ('/' :: D ++ '/' :: []))
        ("index.gmi".data)) = none)
    (hls : fs.readDirNames (pathJoin root ('/' :: D ++ '/' :: [])) = some files) :
    ∃ body,
      serve fs mimeDB root true ('/' :: D ++ '/' :: []) =
        WriterOp.head statusSuccess mimeTypeGemini :: WriterOp.body body :: [] ∧
      body.take ("Index of /".data ++ D ++ "/\n\n".data).length =
        "Index of /".data ++ D ++ "/\n\n".data := by
  obtain ⟨c, r, hDr⟩ : ∃ c r, D.reverse = c :: r := by
    cases hDr : D.reverse with
    | nil =>
      have : D = [] := by
        have h2 := congrArg List.reverse hDr
        simpa using h2
      exact absurd this hD0
    | cons c r => exact ⟨c, r, rfl⟩
  have hc : c ≠ '/' := by
    intro hcEq
    apply hDlast
    rw [← List.head?_reverse, hDr, hcEq]
    rfl
  have htrim := trimRightSlash_closed_form D c r hDr hc
  simp only [List.cons_append] at htrim
  have hfull : fullPath fs root ('/' :: D ++ '/' :: []) =
      (pathJoin root ('/' :: D ++ '/' :: []), some FsErr.dirWithoutIndex) := by
    simp only [fullPath, hdir, hidx]
    simp
  have hne : ('/' :: D ++ '/' :: []) ≠ "/".data := by
    intro h
    have h2 := congrArg List.length h
    simp at h2
  have hlist2 : listDirectory fs (pathJoin root ('/' :: D ++ '/' :: []))
      ('/' :: D ++ '/' :: []) =
      some (("Index of /".data ++ D ++ "/\n\n".data) ++
        ("=> ".data ++ filepathDir ('/' :: D) ++ " ..\n".data ++
          files.foldl (fun acc name =>
            acc ++ ("=> ".data ++ ('/' :: D ++ '/' :: []) ++ '/' :: name ++
              " ".data ++ name ++ "\n".data)) []),
        mimeTypeGemini) := by
    unfold listDirectory
    rw [hls]
    rw [show "Index of /".data = "Index of ".data ++ ('/' :: []) from by decide]
    simp [hne]
    rw [htrim]
    simp
  have hserve : serve fs mimeDB root true ('/' :: D ++ '/' :: []) =
      WriterOp.head statusSuccess mimeTypeGemini ::
        WriterOp.body (("Index of /".data ++ D ++ "/\n\n".data) ++
          ("=> ".data ++ filepathDir ('/' :: D) ++ " ..\n".data ++
            files.foldl (fun acc name =>
              acc ++ ("=> ".data ++ ('/' :: D ++ '/' :: []) ++ '/' :: name ++
                " ".data ++ name ++ "\n".data)) [])) :: [] := by
    unfold serve
    rw [hfull]
    dsimp only
    rw [if_pos ⟨rfl, rfl⟩, hlist2]
  exact ⟨_, hserve, List.take_left _ _⟩

/-- Witness for the amended C6 at the demo filesystem. -/
theorem c6_index_listing_amended_witness :
    ("docs".data ≠ ([] : List Char)) ∧
    (∃ body,
      serve fsDemo mimeDemo ("/srv".data) true ('/' :: "docs".data ++ '/' :: []) =
        WriterOp.head statusSuccess mimeTypeGemini :: WriterOp.body body :: [] ∧
      body.take ("Index of /".data ++ "docs".data ++ "/\n\n".data).length =
        "Index of /".data ++ "docs".data ++ "/\n\n".data) :=
  ⟨by decide,
    c6_index_listing_amended fsDemo mimeDemo ("/srv".data) ("docs".data)
      ("a.gmi".data :: []) (by decide) (by decide) (by decide) (by decide) (by decide)⟩

/-! ## C2: dot-dot traversal is rejected -/

theorem splitOnSlash_shape (l : List Char) : ∃ s ss, splitOnSlash l = s :: ss := by
  induction l with
  | nil => exact ⟨[], [], rfl⟩
  | cons c rest ih =>
    obtain ⟨s, ss, h⟩ := ih
    unfold splitOnSlash
    rw [h]
    by_cases hc : c = '/'
    · exact ⟨[], s :: ss, by simp [hc]⟩
    · exact ⟨c :: s, ss, by simp [hc]⟩

theorem splitOnSlash_no_slash (l : List Char) :
    ∀ s ∈ splitOnSlash l, '/' ∉ s := by
  induction l with
  | nil =>
    intro s hs
    unfold splitOnSlash at hs
    rcases List.mem_cons.mp hs with h1 | h1
    · subst h1
      simp
    · cases h1
  | cons c rest ih =>
    obtain ⟨s0, ss0, h⟩ := splitOnSlash_shape rest
    intro s hs
    unfold splitOnSlash at hs
    rw [h] at hs
    dsimp only at hs
    by_cases hc : c = '/'
    · rw [if_pos hc] at hs
      rcases List.mem_cons.mp hs with h1 | h1
      · subst h1
        simp
      · apply ih
        rw [h]
        exact h1
    · rw [if_neg hc] at hs
      rcases List.mem_cons.mp hs with h1 | h1
      · subst h1
        intro hmem
        rcases List.mem_cons.mp hmem with h2 | h2
        · exact hc h2.symm
        · apply ih s0 (by rw [h]; exact List.mem_cons_self _ _)
          exact h2
      · apply ih
        rw [h]
        exact List.mem_cons_of_mem _ h1

theorem splitOnSlash_no_slash_self (s : List Char) (h : '/' ∉ s) :
    splitOnSlash s = s :: [] := by
  induction s with
  | nil => rfl
  | cons c rest ih =>
    have hc : ¬(c = '/') := by
      intro hcEq
      exact h (by rw [hcEq]; exact List.mem_cons_self _ _)
    have h2 : '/' ∉ rest := fun hm => h (List.mem_cons_of_mem _ hm)
    unfold splitOnSlash
    rw [ih h2]
    simp [hc]

theorem splitOnSlash_append_front (s : List Char) (l : List Char) (hd : List Char)
    (tl : List (List Char)) (hs : '/' ∉ s) (h : splitOnSlash l = hd :: tl) :
    splitOnSlash (s ++ l) = (s ++ hd) :: tl := by
  induction s with
  | nil => simpa using h
  | cons c rest ih =>
    have hc : ¬(c = '/') := by
      intro hcEq
      exact hs (by rw [hcEq]; exact List.mem_cons_self _ _)
    have h2 : '/' ∉ rest := fun hm => hs (List.mem_cons_of_mem _ hm)
    rw [show (c :: rest) ++ l = c :: (rest ++ l) from rfl]
    unfold splitOnSlash
    rw [ih h2]
    simp [hc]

theorem splitOnSlash_joinSlash (l : List (List Char)) (hne : l ≠ [])
    (h : ∀ s ∈ l, '/' ∉ s) : splitOnSlash (joinSlash l) = l := by
  induction l with
  | nil => exact absurd rfl hne
  | cons s ss ih =>
    cases ss with
    | nil =>
      rw [show joinSlash (s :: []) = s from rfl]
      exact splitOnSlash_no_slash_self s (h s (List.mem_cons_self _ _))
    | cons s2 ss2 =>
      have hrec := ih (by simp) (fun x hx => h x (List.mem_cons_of_mem _ hx))
      rw [show joinSlash (s :: s2 :: ss2) = s ++ '/' :: joinSlash (s2 :: ss2) from rfl]
      have hsplit : splitOnSlash ('/' :: joinSlash (s2 :: ss2)) = [] :: s2 :: ss2 := by
        unfold splitOnSlash
        rw [hrec]
        simp
      have hres := splitOnSlash_append_front s ('/' :: joinSlash (s2 :: ss2)) []
        (s2 :: ss2) (h s (List.mem_cons_self _ _)) hsplit
      rw [hres]
      simp

theorem cleanSegs_mem (rooted : Bool) (segs : List (List Char)) :
    ∀ (stack : List (List Char)) (x : List Char),
      x ∈ cleanSegs rooted stack segs → x ∈ stack ∨ x ∈ segs := by
  induction segs with
  | nil =>
    intro stack x hx
    unfold cleanSegs at hx
    exact Or.inl (List.mem_reverse.mp hx)
  | cons seg rest ih =>
    intro stack x hx
    unfold cleanSegs at hx
    by_cases hseg : seg = dotdot
    · rw [if_pos hseg] at hx
      cases stack with
      | nil =>
        dsimp only at hx
        by_cases hb : rooted = true
        · rw [if_pos hb] at hx
          rcases ih [] x hx with h | h
          · cases h
          · exact Or.inr (List.mem_cons_of_mem _ h)
        · rw [if_neg hb] at hx
          rcases ih (dotdot :: []) x hx with h | h
          · rcases List.mem_cons.mp h with h2 | h2
            · rw [h2, ← hseg]
              exact Or.inr (List.mem_cons_self _ _)
            · cases h2
          · exact Or.inr (List.mem_cons_of_mem _ h)
      | cons top stk =>
        dsimp only at hx
        by_cases htop : top = dotdot
        · rw [if_pos htop] at hx
          rcases ih (dotdot :: top :: stk) x hx with h | h
          · rcases List.mem_cons.mp h with h2 | h2
            · rw [h2, ← hseg]
              exact Or.inr (List.mem_cons_self _ _)
            · exact Or.inl h2
          · exact Or.inr (List.mem_cons_of_mem _ h)
        · rw [if_neg htop] at hx
          rcases ih stk x hx with h | h
          · exact Or.inl (List.mem_cons_of_mem _ h)
          · exact Or.inr (List.mem_cons_of_mem _ h)
    · rw [if_neg hseg] at hx
      rcases ih (seg :: stack) x hx with h | h
      · rcases List.mem_cons.mp h with h2 | h2
        · rw [h2]
          exact Or.inr (List.mem_cons_self _ _)
        · exact Or.inl h2
      · exact Or.inr (List.mem_cons_of_mem _ h)

theorem cleanSegs_rooted_no_dotdot (segs : List (List Char)) :
    ∀ stack : List (List Char), (∀ x ∈ stack, x ≠ dotdot) →
      ∀ x ∈ cleanSegs true stack segs, x ≠ dotdot := by
  induction segs with
  | nil =>
    intro stack hstack x hx
    unfold cleanSegs at hx
    exact hstack x (List.mem_reverse.mp hx)
  | cons seg rest ih =>
    intro stack hstack x hx
    unfold cleanSegs at hx
    by_cases hseg : seg = dotdot
    · rw [if_pos hseg] at hx
      cases stack with
      | nil =>
        dsimp only at hx
        rw [if_pos rfl] at hx
        exact ih [] (by intro y hy; cases hy) x hx
      | cons top stk =>
        dsimp only at hx
        have htop : ¬(top = dotdot) := hstack top (List.mem_cons_self _ _)
        rw [if_neg htop] at hx
        exact ih stk (fun y hy => hstack y (List.mem_cons_of_mem _ hy)) x hx
    · rw [if_neg hseg] at hx
      apply ih (seg :: stack) ?_ x hx
      intro y hy
      rcases List.mem_cons.mp hy with h2 | h2
      · rw [h2]
        exact hseg
      · exact hstack y h2

theorem rawSegs_mem (p : List Char) (x : List Char) (h : x ∈ rawSegs p) :
    x ∈ splitOnSlash p ∧ x ≠ [] := by
  unfold rawSegs at h
  have h2 := List.mem_filter.mp h
  exact ⟨h2.1, (of_decide_eq_true h2.2).1⟩

theorem pathClean_rooted (p : List Char) (hne : p ≠ []) (hr : p.head? = some '/') :
    pathClean p =
      (if cleanSegs true [] (rawSegs p) = [] then '/' :: []
       else '/' :: joinSlash (cleanSegs true [] (rawSegs p))) := by
  unfold pathClean
  rw [if_neg hne]
  have hroot : decide (p.head? = some '/') = true := decide_eq_true hr
  simp only [hroot, if_true]

theorem pathClean_rooted_no_dotdot (p : List Char) (hr : p.head? = some '/') :
    dotdot ∉ splitOnSlash (pathClean p) := by
  have hne : p ≠ [] := by
    intro h
    rw [h] at hr
    cases hr
  rw [pathClean_rooted p hne hr]
  by_cases hsegs : cleanSegs true [] (rawSegs p) = []
  · rw [if_pos hsegs]
    decide
  · rw [if_neg hsegs]
    obtain ⟨s0, ss0, hs0⟩ := List.exists_cons_of_ne_nil hsegs
    have hnosl : ∀ s ∈ cleanSegs true [] (rawSegs p), '/' ∉ s := by
      intro s hs
      rcases cleanSegs_mem true (rawSegs p) [] s hs with h | h
      · cases h
      · exact splitOnSlash_no_slash p s (rawSegs_mem p s h).1
    have hjoin : splitOnSlash (joinSlash (cleanSegs true [] (rawSegs p))) =
        cleanSegs true [] (rawSegs p) := splitOnSlash_joinSlash _ hsegs hnosl
    have hsp : splitOnSlash ('/' :: joinSlash (cleanSegs true [] (rawSegs p))) =
        [] :: s0 :: ss0 := by
      unfold splitOnSlash
      rw [hjoin, hs0]
      simp
    rw [hsp]
    intro hmem
    rcases List.mem_cons.mp hmem with h | h
    · exact (by decide : dotdot ≠ ([] : List Char)) h
    · refine cleanSegs_rooted_no_dotdot (rawSegs p) [] (by intro y hy; cases hy)
        dotdot ?_ rfl
      rw [hs0]
      exact h

theorem splitOnSlash_append_slash (p : List Char) :
    splitOnSlash (p ++ '/' :: []) = splitOnSlash p ++ ([] : List Char) :: [] := by
  induction p with
  | nil => rfl
  | cons c rest ih =>
    obtain ⟨s, ss, hs⟩ := splitOnSlash_shape rest
    rw [show (c :: rest) ++ '/' :: [] = c :: (rest ++ '/' :: []) from rfl]
    unfold splitOnSlash
    rw [ih, hs]
    by_cases hc : c = '/'
    · simp [hc]
    · simp [hc]

theorem splitOnSlash_append_replicate (p : List Char) (k : Nat) :
    splitOnSlash (p ++ List.replicate k '/') =
      splitOnSlash p ++ List.replicate k ([] : List Char) := by
  induction k with
  | zero => simp
  | succ k ih =>
    rw [List.replicate_succ' k '/', ← List.append_assoc, splitOnSlash_append_slash,
      ih, List.append_assoc, ← List.replicate_succ' k ([] : List Char)]

theorem trimRightSlash_decomp (p : List Char) :
    p = trimRightSlash p ++
      List.replicate (p.reverse.takeWhile (fun c => c == '/')).length '/' := by
  unfold trimRightSlash
  have h2 : (p.reverse.takeWhile (fun c => c == '/')).reverse =
      List.replicate (p.reverse.takeWhile (fun c => c == '/')).length '/' := by
    apply List.eq_replicate_iff.mpr
    refine ⟨by simp, ?_⟩
    intro b hb
    have h3 := List.mem_takeWhile_imp (List.mem_reverse.mp hb)
    simpa using h3
  calc p = p.reverse.reverse := (List.reverse_reverse p).symm
    _ = (p.reverse.takeWhile (fun c => c == '/') ++
        p.reverse.dropWhile (fun c => c == '/')).reverse := by
          rw [List.takeWhile_append_dropWhile]
    _ = (p.reverse.dropWhile (fun c => c == '/')).reverse ++
        (p.reverse.takeWhile (fun c => c == '/')).reverse := List.reverse_append _ _
    _ = (p.reverse.dropWhile (fun c => c == '/')).reverse ++
        List.replicate (p.reverse.takeWhile (fun c => c == '/')).length '/' := by
          rw [h2]

theorem hasDotDotSeg_trimRightSlash (p : List Char) (h : hasDotDotSeg p) :
    hasDotDotSeg (trimRightSlash p) := by
  unfold hasDotDotSeg at h ⊢
  rw [trimRightSlash_decomp p, splitOnSlash_append_replicate] at h
  rcases List.mem_append.mp h with h1 | h1
  · exact h1
  · exact absurd (List.eq_of_mem_replicate h1) (by decide)

theorem pathClean_ne_of_dotdot (p : List Char) (hr : p.head? = some '/')
    (hd : hasDotDotSeg p) : pathClean p ≠ p := by
  intro he
  apply pathClean_rooted_no_dotdot p hr
  rw [he]
  exact hd

theorem pathClean_ne_trim_of_dotdot (p : List Char) (hr : p.head? = some '/')
    (hd : hasDotDotSeg p) : pathClean p ≠ trimRightSlash p := by
  intro he
  apply pathClean_rooted_no_dotdot p hr
  rw [he]
  exact hasDotDotSeg_trimRightSlash p hd

/-- C2: every request whose URL path contains a `..` segment fails
validateRequest with StatusBadRequest (so it never reaches the handler: the
engine writes the coded error and returns).  The path of any parsed URL with
a non-empty host is empty or starts with '/', and an empty path has no `..`
segment, so the rooted hypothesis covers all requests that reach the path
check; the scheme and host hypotheses restrict to requests that pass the
earlier scheme and host checks. -/
theorem c2_dotdot_rejected (scheme host p : List Char)
    (hs : scheme = [] ∨ scheme = "gemini".data) (hh : ¬(host = []))
    (hr : p.head? = some '/') (hd : hasDotDotSeg p) :
    validateRequest scheme host p =
      some { code := statusBadRequest, err := GErr.invalidPath } := by
  have h1 : ¬(scheme ≠ [] ∧ scheme ≠ "gemini".data) := by
    rcases hs with h | h <;> simp [h]
  have hp : ¬(p = []) := by
    intro he
    rw [he] at hr
    cases hr
  unfold validateRequest
  rw [if_neg h1, if_neg hh, if_neg hp,
    if_pos ⟨pathClean_ne_of_dotdot p hr hd, pathClean_ne_trim_of_dotdot p hr hd⟩]

/-- Witness for C2 at the request path "/a/../b". -/
theorem c2_dotdot_rejected_witness :
    (([] : List Char) = [] ∨ ([] : List Char) = "gemini".data) ∧
    ¬("h".data = ([] : List Char)) ∧
    ("/a/../b".data).head? = some '/' ∧
    hasDotDotSeg ("/a/../b".data) ∧
    validateRequest [] ("h".data) ("/a/../b".data) =
      some { code := statusBadRequest, err := GErr.invalidPath } :=
  ⟨Or.inl rfl, by decide, by decide, by decide,
    c2_dotdot_rejected [] ("h".data) ("/a/../b".data) (Or.inl rfl) (by decide)
      (by decide) (by decide)⟩

/-! ## C3: cache capacity bound and FIFO eviction -/

theorem tmod_small (a b : Int) (h0 : 0 ≤ a) (h1 : a < b) : a.tmod b = a := by
  rw [Int.tmod_eq_emod h0 (by omega)]
  exact Int.emod_eq_of_lt h0 h1

theorem tmod_bounds (a b : Int) (h0 : 0 ≤ a) (hb : 0 < b) :
    0 ≤ a.tmod b ∧ a.tmod b < b := by
  rw [Int.tmod_eq_emod h0 (by omega)]
  exact ⟨Int.emod_nonneg a (by omega), Int.emod_lt_of_pos a hb⟩

theorem length_mapErase_of_mem_nodup {α β : Type} [DecidableEq α] (k : α)
    (m : List (α × β)) (hn : (keysOf m).Nodup) (hk : k ∈ keysOf m) :
    (mapErase m k).length + 1 = m.length := by
  induction m with
  | nil => cases hk
  | cons e m ih =>
    rw [show keysOf (e :: m) = e.1 :: keysOf m from rfl, List.nodup_cons] at hn
    by_cases hf : e.1 = k
    · rw [show mapErase (e :: m) k = mapErase m k from by simp [mapErase, hf],
        mapErase_of_not_mem k m (by rw [← hf]; exact hn.1)]
      simp
    · have hk2 : k ∈ keysOf m := by
        rcases List.mem_cons.mp hk with h | h
        · exact absurd h.symm hf
        · exact h
      rw [show mapErase (e :: m) k = e :: mapErase m k from by simp [mapErase, hf]]
      have h3 := ih hn.2 hk2
      simp only [List.length_cons]
      omega

theorem exists_pair_of_mem_valsOf {α β : Type} {v : β} {m : List (α × β)}
    (h : v ∈ valsOf m) : ∃ s, (s, v) ∈ m := by
  obtain ⟨e, he, hv⟩ := List.mem_map.mp h
  exact ⟨e.1, by rw [← hv]; simpa using he⟩

theorem length_le_of_nodup_subset (l1 l2 : List (List Char)) (h1 : l1.Nodup)
    (h2 : ∀ x ∈ l1, x ∈ l2) : l1.length ≤ l2.length := by
  have e1 : l1.toFinset.card = l1.length := List.toFinset_card_of_nodup h1
  have e2 : l2.toFinset.card ≤ l2.length := l2.toFinset_card_le
  have e3 : l1.toFinset.card ≤ l2.toFinset.card := by
    apply Finset.card_le_card
    intro x hx
    exact List.mem_toFinset.mpr (h2 x (List.mem_toFinset.mp hx))
  omega

theorem cacheWrite_pos (c : CacheState) (key mt doc : List Char)
    (h : 0 < c.size) :
    cacheWrite c key mt doc = some (cacheWriteStep c key mt doc) := by
  have hne : ¬(c.size ≤ 0) := by omega
  have hnz : ¬(c.size = 0) := by omega
  unfold cacheWrite housekeeping cacheWriteStep
  rw [if_neg hne]
  by_cases hb : c.size ≤ (c.tracker.length : Int)
  · simp only [hb, if_true, if_pos hb]
    rw [if_neg hnz]
    rfl
  · simp only [hb, if_false, if_neg hb]
    rw [if_neg hnz]
    rfl

theorem cacheInv_write (n : Nat) (c : CacheState) (inv : CacheInv n c) (hn : 0 < n)
    (key mt doc : List Char) : CacheInv n (cacheWriteStep c key mt doc) := by
  have hsz := inv.size_eq
  have hidxr := inv.index_range
  have hnz : (0 : Int) < c.size := by
    rw [hsz]
    exact_mod_cast hn
  have hidx1 : 0 ≤ c.index + 1 := by omega
  have hbnd := tmod_bounds (c.index + 1) c.size hidx1 hnz
  by_cases hb : c.size ≤ (c.tracker.length : Int)
  · -- eviction branch: the tracker is at capacity
    have hlen_eq : c.tracker.length = n := by
      have h1 : (n : Int) ≤ (c.tracker.length : Int) := by rw [← hsz]; exact hb
      have h2 : n ≤ c.tracker.length := by exact_mod_cast h1
      have h3 := inv.len_le
      omega
    have hidx_mem : c.index ∈ keysOf c.tracker := by
      apply (inv.slots_iff c.index).mpr
      refine ⟨hidxr.1, ?_⟩
      rw [hlen_eq]
      exact hidxr.2
    obtain ⟨v, hv, hvm⟩ := mapLookup_isSome_of_mem c.tracker hidx_mem
    have hexp : (mapLookup c.tracker c.index).getD [] = v := by
      rw [hv]
      rfl
    have hdocs : (cacheWriteStep c key mt doc).documents =
        mapInsert (mapErase c.documents v) key doc := by
      simp [cacheWriteStep, if_pos hb, hexp]
    have hmimes : (cacheWriteStep c key mt doc).mimeTypes =
        mapInsert (mapErase c.mimeTypes v) key mt := by
      simp [cacheWriteStep, if_pos hb, hexp]
    have hEnotmem : c.index ∉ keysOf (mapErase c.tracker c.index) := by
      intro hmem
      exact ((mem_keysOf_mapErase c.index c.index c.tracker).mp hmem).2 rfl
    have htr : (cacheWriteStep c key mt doc).tracker =
        (c.index, key) :: mapErase c.tracker c.index := by
      have h4 : mapInsert (mapErase c.tracker c.index) c.index key =
          (c.index, key) :: mapErase c.tracker c.index := by
        unfold mapInsert
        rw [mapErase_of_not_mem _ _ hEnotmem]
      simp [cacheWriteStep, if_pos hb, h4]
    have hlenE : (mapErase c.tracker c.index).length + 1 = c.tracker.length :=
      length_mapErase_of_mem_nodup c.index c.tracker inv.slots_nodup hidx_mem
    have hlen2 : (cacheWriteStep c key mt doc).tracker.length = n := by
      rw [htr]
      simp only [List.length_cons]
      omega
    refine ⟨?_, ?_, ?_, ?_, ?_, ?_, ?_, ?_, ?_, ?_⟩
    · exact hsz
    · rw [hlen2]
    · rw [htr]
      rw [show keysOf ((c.index, key) :: mapErase c.tracker c.index) =
          c.index :: keysOf (mapErase c.tracker c.index) from rfl, List.nodup_cons]
      exact ⟨hEnotmem, keysOf_mapErase_nodup c.index c.tracker inv.slots_nodup⟩
    · intro s
      rw [hlen2, htr]
      rw [show keysOf ((c.index, key) :: mapErase c.tracker c.index) =
          c.index :: keysOf (mapErase c.tracker c.index) from rfl]
      constructor
      · intro hs
        rcases List.mem_cons.mp hs with h4 | h4
        · subst h4
          exact hidxr
        · have h5 := (mem_keysOf_mapErase s c.index c.tracker).mp h4
          have h6 := (inv.slots_iff s).mp h5.1
          rw [hlen_eq] at h6
          exact h6
      · intro hs
        by_cases h4 : s = c.index
        · rw [h4]
          exact List.mem_cons_self _ _
        · apply List.mem_cons_of_mem
          apply (mem_keysOf_mapErase s c.index c.tracker).mpr
          refine ⟨(inv.slots_iff s).mpr ?_, h4⟩
          rw [hlen_eq]
          exact hs
    · intro h4
      rw [hlen2] at h4
      omega
    · rw [show (cacheWriteStep c key mt doc).index = (c.index + 1).tmod c.size
        from rfl]
      rw [← hsz]
      exact hbnd
    · rw [hdocs]
      exact mapInsert_keys_nodup key doc _ (keysOf_mapErase_nodup v _ inv.doc_nodup)
    · rw [hmimes]
      exact mapInsert_keys_nodup key mt _ (keysOf_mapErase_nodup v _ inv.mime_nodup)
    · intro k1 hk1
      rw [hdocs] at hk1
      rw [htr]
      rw [show keysOf (mapInsert (mapErase c.documents v) key doc) =
          key :: keysOf (mapErase (mapErase c.documents v) key) from rfl] at hk1
      rcases List.mem_cons.mp hk1 with h4 | h4
      · subst h4
        exact List.mem_map_of_mem _ (List.mem_cons_self _ _)
      · have h5 := (mem_keysOf_mapErase k1 key (mapErase c.documents v)).mp h4
        have h6 := (mem_keysOf_mapErase k1 v c.documents).mp h5.1
        have h7 := inv.doc_sub k1 h6.1
        obtain ⟨s, hs⟩ := exists_pair_of_mem_valsOf h7
        have hsidx : s ≠ c.index := by
          intro he
          subst he
          have h8 := mapLookup_of_mem_nodup c.tracker inv.slots_nodup hs
          rw [hv] at h8
          cases h8
          exact h6.2 rfl
        have h9 : (s, k1) ∈ mapErase c.tracker c.index :=
          (mem_mapErase (s, k1) c.index c.tracker).mpr ⟨hs, hsidx⟩
        exact List.mem_cons_of_mem _ (List.mem_map_of_mem _ h9)
    · intro k1 hk1
      rw [hmimes] at hk1
      rw [htr]
      rw [show keysOf (mapInsert (mapErase c.mimeTypes v) key mt) =
          key :: keysOf (mapErase (mapErase c.mimeTypes v) key) from rfl] at hk1
      rcases List.mem_cons.mp hk1 with h4 | h4
      · subst h4
        exact List.mem_map_of_mem _ (List.mem_cons_self _ _)
      · have h5 := (mem_keysOf_mapErase k1 key (mapErase c.mimeTypes v)).mp h4
        have h6 := (mem_keysOf_mapErase k1 v c.mimeTypes).mp h5.1
        have h7 := inv.mime_sub k1 h6.1
        obtain ⟨s, hs⟩ := exists_pair_of_mem_valsOf h7
        have hsidx : s ≠ c.index := by
          intro he
          subst he
          have h8 := mapLookup_of_mem_nodup c.tracker inv.slots_nodup hs
          rw [hv] at h8
          cases h8
          exact h6.2 rfl
        have h9 : (s, k1) ∈ mapErase c.tracker c.index :=
          (mem_mapErase (s, k1) c.index c.tracker).mpr ⟨hs, hsidx⟩
        exact List.mem_cons_of_mem _ (List.mem_map_of_mem _ h9)
  · -- filling branch: the tracker is below capacity and the slot is fresh
    have hlen_lt : c.tracker.length < n := by
      rw [hsz] at hb
      by_contra h4
      apply hb
      have h5 : n ≤ c.tracker.length := by omega
      exact_mod_cast h5
    have hidx_eq : c.index = (c.tracker.length : Int) := inv.index_low hlen_lt
    have hidx_not : c.index ∉ keysOf c.tracker := by
      intro hmem
      have h4 := (inv.slots_iff c.index).mp hmem
      omega
    have hdocs : (cacheWriteStep c key mt doc).documents =
        mapInsert c.documents key doc := by
      simp [cacheWriteStep, if_neg hb]
    have hmimes : (cacheWriteStep c key mt doc).mimeTypes =
        mapInsert c.mimeTypes key mt := by
      simp [cacheWriteStep, if_neg hb]
    have htr : (cacheWriteStep c key mt doc).tracker =
        (c.index, key) :: c.tracker := by
      have h4 : mapInsert c.tracker c.index key = (c.index, key) :: c.tracker := by
        unfold mapInsert
        rw [mapErase_of_not_mem _ _ hidx_not]
      simp [cacheWriteStep, if_neg hb, h4]
    have hlen2 : (cacheWriteStep c key mt doc).tracker.length =
        c.tracker.length + 1 := by
      rw [htr]
      simp
    refine ⟨?_, ?_, ?_, ?_, ?_, ?_, ?_, ?_, ?_, ?_⟩
    · exact hsz
    · rw [hlen2]
      omega
    · rw [htr]
      rw [show keysOf ((c.index, key) :: c.tracker) = c.index :: keysOf c.tracker
        from rfl, List.nodup_cons]
      exact ⟨hidx_not, inv.slots_nodup⟩
    · intro s
      rw [hlen2, htr]
      rw [show keysOf ((c.index, key) :: c.tracker) = c.index :: keysOf c.tracker
        from rfl]
      constructor
      · intro hs
        rcases List.mem_cons.mp hs with h4 | h4
        · subst h4
          omega
        · have h5 := (inv.slots_iff s).mp h4
          omega
      · intro hs
        by_cases h4 : s = c.index
        · rw [h4]
          exact List.mem_cons_self _ _
        · apply List.mem_cons_of_mem
          apply (inv.slots_iff s).mpr
          omega
    · intro h4
      rw [hlen2] at h4
      rw [show (cacheWriteStep c key mt doc).index = (c.index + 1).tmod c.size
        from rfl, hlen2]
      have h5 : c.index + 1 < c.size := by
        rw [hsz, hidx_eq]
        omega
      rw [tmod_small _ _ hidx1 h5, hidx_eq]
      omega
    · rw [show (cacheWriteStep c key mt doc).index = (c.index + 1).tmod c.size
        from rfl]
      rw [← hsz]
      exact hbnd
    · rw [hdocs]
      exact mapInsert_keys_nodup key doc _ inv.doc_nodup
    · rw [hmimes]
      exact mapInsert_keys_nodup key mt _ inv.mime_nodup
    · intro k1 hk1
      rw [hdocs] at hk1
      rw [htr]
      rw [show keysOf (mapInsert c.documents key doc) =
          key :: keysOf (mapErase c.documents key) from rfl] at hk1
      rcases List.mem_cons.mp hk1 with h4 | h4
      · subst h4
        exact List.mem_map_of_mem _ (List.mem_cons_self _ _)
      · have h5 := (mem_keysOf_mapErase k1 key c.documents).mp h4
        have h7 := inv.doc_sub k1 h5.1
        obtain ⟨s, hs⟩ := exists_pair_of_mem_valsOf h7
        exact List.mem_cons_of_mem _ (List.mem_map_of_mem _ hs)
    · intro k1 hk1
      rw [hmimes] at hk1
      rw [htr]
      rw [show keysOf (mapInsert c.mimeTypes key mt) =
          key :: keysOf (mapErase c.mimeTypes key) from rfl] at hk1
      rcases List.mem_cons.mp hk1 with h4 | h4
      · subst h4
        exact List.mem_map_of_mem _ (List.mem_cons_self _ _)
      · have h5 := (mem_keysOf_mapErase k1 key c.mimeTypes).mp h4
        have h7 := inv.mime_sub k1 h5.1
        obtain ⟨s, hs⟩ := exists_pair_of_mem_valsOf h7
        exact List.mem_cons_of_mem _ (List.mem_map_of_mem _ hs)

theorem cacheInv_mkCache (n : Nat) (hn : 0 < n) : CacheInv n (mkCache n) := by
  refine ⟨rfl, ?_, ?_, ?_, ?_, ?_, ?_, ?_, ?_, ?_⟩
  · simp [mkCache]
  · simp [mkCache, keysOf]
  · intro s
    simp [mkCache, keysOf]
  · intro h
    rfl
  · constructor
    · exact le_refl 0
    · show (0 : Int) < (n : Int)
      exact_mod_cast hn
  · simp [mkCache, keysOf]
  · simp [mkCache, keysOf]
  · intro k hk
    simp [mkCache, keysOf] at hk
  · intro k hk
    simp [mkCache, keysOf] at hk

theorem cacheInv_bound (n : Nat) (c : CacheState) (inv : CacheInv n c) :
    c.documents.length ≤ n ∧ c.mimeTypes.length ≤ n := by
  have hlen : (valsOf c.tracker).length = c.tracker.length := by
    simp [valsOf]
  have hdoc : c.documents.length = (keysOf c.documents).length := by
    simp [keysOf]
  have hmime : c.mimeTypes.length = (keysOf c.mimeTypes).length := by
    simp [keysOf]
  constructor
  · rw [hdoc]
    calc (keysOf c.documents).length ≤ (valsOf c.tracker).length :=
          length_le_of_nodup_subset _ _ inv.doc_nodup inv.doc_sub
    _ = c.tracker.length := hlen
    _ ≤ n := inv.len_le
  · rw [hmime]
    calc (keysOf c.mimeTypes).length ≤ (valsOf c.tracker).length :=
          length_le_of_nodup_subset _ _ inv.mime_nodup inv.mime_sub
    _ = c.tracker.length := hlen
    _ ≤ n := inv.len_le

theorem writeSeq_inv (n : Nat) (hn : 0 < n) (ops : List (List Char × List Char × List Char)) :
    ∀ c : CacheState, CacheInv n c →
      ∃ c1, writeSeq c ops = some c1 ∧ CacheInv n c1 := by
  induction ops with
  | nil => exact fun c inv => ⟨c, rfl, inv⟩
  | cons t rest ih =>
    intro c inv
    have hpos : 0 < c.size := by
      rw [inv.size_eq]
      exact_mod_cast hn
    have hw := cacheWrite_pos c t.1 t.2.1 t.2.2 hpos
    obtain ⟨c1, hc1, hinv1⟩ := ih (cacheWriteStep c t.1 t.2.1 t.2.2)
      (cacheInv_write n c inv hn t.1 t.2.1 t.2.2)
    refine ⟨c1, ?_, hinv1⟩
    unfold writeSeq
    rw [hw]
    exact hc1

theorem trackerOf_length (ts : List (List Char × List Char × List Char)) :
    (trackerOf ts).length = ts.length := by
  unfold trackerOf
  simp [List.enum_length]

theorem docsOf_append_single (done : List (List Char × List Char × List Char))
    (t : List Char × List Char × List Char) :
    docsOf (done ++ t :: []) = (t.1, t.2.2) :: docsOf done := by
  unfold docsOf
  simp

theorem mimesOf_append_single (done : List (List Char × List Char × List Char))
    (t : List Char × List Char × List Char) :
    mimesOf (done ++ t :: []) = (t.1, t.2.1) :: mimesOf done := by
  unfold mimesOf
  simp

theorem trackerOf_append_single (done : List (List Char × List Char × List Char))
    (t : List Char × List Char × List Char) :
    trackerOf (done ++ t :: []) = ((done.length : Int), t.1) :: trackerOf done := by
  unfold trackerOf
  rw [List.enum_append]
  simp [List.enumFrom]

theorem trackerOf_keys_lt (done : List (List Char × List Char × List Char)) :
    ∀ s ∈ keysOf (trackerOf done), 0 ≤ s ∧ s < (done.length : Int) := by
  induction done using List.reverseRecOn with
  | nil => intro s hs; cases hs
  | append_singleton done t ih =>
    intro s hs
    rw [trackerOf_append_single] at hs
    rw [show keysOf (((done.length : Int), t.1) :: trackerOf done) =
        (done.length : Int) :: keysOf (trackerOf done) from rfl] at hs
    simp only [List.length_append, List.length_cons, List.length_nil]
    rcases List.mem_cons.mp hs with h | h
    · subst h
      constructor
      · exact Int.ofNat_nonneg _
      · push_cast
        omega
    · have h2 := ih s h
      constructor
      · exact h2.1
      · have := h2.2
        push_cast at this ⊢
        omega

theorem keysOf_docsOf (ts : List (List Char × List Char × List Char)) :
    keysOf (docsOf ts) = (ts.map (fun t => t.1)).reverse := by
  unfold keysOf docsOf
  rw [List.map_reverse, List.map_map]
  rfl

theorem keysOf_mimesOf (ts : List (List Char × List Char × List Char)) :
    keysOf (mimesOf ts) = (ts.map (fun t => t.1)).reverse := by
  unfold keysOf mimesOf
  rw [List.map_reverse, List.map_map]
  rfl

theorem trackerOf_lookup_zero (done : List (List Char × List Char × List Char)) :
    mapLookup (trackerOf done) 0 = done.head?.map (fun t => t.1) := by
  induction done using List.reverseRecOn with
  | nil => rfl
  | append_singleton done t ih =>
    rw [trackerOf_append_single]
    cases done with
    | nil => rfl
    | cons d done2 =>
      have hne : ¬(((d :: done2).length : Int) = 0) := by
        simp only [List.length_cons]
        push_cast
        omega
      rw [show mapLookup ((((d :: done2).length : Int), t.1) :: trackerOf (d :: done2)) 0 =
          if ((d :: done2).length : Int) = 0 then some t.1
          else mapLookup (trackerOf (d :: done2)) 0 from rfl, if_neg hne, ih]
      rfl

theorem stateOf_nil (n : Nat) : stateOf n [] = mkCache (n : Int) := by
  unfold stateOf mkCache docsOf mimesOf trackerOf
  simp

theorem cacheWriteStep_fresh (n : Nat) (hn : 0 < n)
    (done : List (List Char × List Char × List Char))
    (t : List Char × List Char × List Char)
    (hlen : done.length < n) (hkey : t.1 ∉ done.map (fun u => u.1)) :
    cacheWriteStep (stateOf n done) t.1 t.2.1 t.2.2 = stateOf n (done ++ t :: []) := by
  have htmod : ((done.length : Int)).tmod (n : Int) = (done.length : Int) :=
    tmod_small _ _ (Int.ofNat_nonneg _) (by exact_mod_cast hlen)
  have hcond : ¬((n : Int) ≤ ((trackerOf done).length : Int)) := by
    rw [trackerOf_length]
    intro h
    have h2 : n ≤ done.length := by exact_mod_cast h
    omega
  have hkeyd : t.1 ∉ keysOf (docsOf done) := by
    rw [keysOf_docsOf]
    intro h
    exact hkey (List.mem_reverse.mp h)
  have hkeym : t.1 ∉ keysOf (mimesOf done) := by
    rw [keysOf_mimesOf]
    intro h
    exact hkey (List.mem_reverse.mp h)
  have hkeyt : (done.length : Int) ∉ keysOf (trackerOf done) := by
    intro h
    have h2 := trackerOf_keys_lt done _ h
    omega
  have hlen1 : ((done ++ t :: []).length : Int) = (done.length : Int) + 1 := by
    simp
  unfold cacheWriteStep stateOf
  dsimp only
  rw [if_neg hcond, if_neg hcond, if_neg hcond, htmod]
  rw [docsOf_append_single, mimesOf_append_single, trackerOf_append_single]
  rw [show mapInsert (docsOf done) t.1 t.2.2 =
      (t.1, t.2.2) :: mapErase (docsOf done) t.1 from rfl,
    mapErase_of_not_mem _ _ hkeyd]
  rw [show mapInsert (mimesOf done) t.1 t.2.1 =
      (t.1, t.2.1) :: mapErase (mimesOf done) t.1 from rfl,
    mapErase_of_not_mem _ _ hkeym]
  rw [show mapInsert (trackerOf done) ((done.length : Int)) t.1 =
      ((done.length : Int), t.1) :: mapErase (trackerOf done) ((done.length : Int))
      from rfl,
    mapErase_of_not_mem _ _ hkeyt]
  rw [CacheState.mk.injEq]
  refine ⟨rfl, rfl, rfl, ?_, rfl⟩
  rw [hlen1]

theorem writeSeq_fresh (n : Nat) (hn : 0 < n) :
    ∀ (ts done : List (List Char × List Char × List Char)),
      done.length + ts.length ≤ n →
      ((done ++ ts).map (fun t => t.1)).Nodup →
      writeSeq (stateOf n done) ts = some (stateOf n (done ++ ts)) := by
  intro ts
  induction ts with
  | nil =>
    intro done h1 h2
    simp [writeSeq]
  | cons t rest ih =>
    intro done h1 h2
    have hlen : done.length < n := by
      simp only [List.length_cons] at h1
      omega
    have hkey : t.1 ∉ done.map (fun u => u.1) := by
      intro hmem
      rw [List.map_append] at h2
      have hdisj := (List.nodup_append.mp h2).2.2
      exact hdisj hmem (by simp)
    have hpos : 0 < (stateOf n done).size := by
      show (0 : Int) < (n : Int)
      exact_mod_cast hn
    have h3 := ih (done ++ t :: [])
      (by simp only [List.length_append, List.length_cons, List.length_nil] at h1 ⊢; omega)
      (by rw [List.append_assoc]; simpa using h2)
    unfold writeSeq
    rw [cacheWrite_pos _ _ _ _ hpos, cacheWriteStep_fresh n hn done t hlen hkey]
    rw [List.append_assoc] at h3
    simpa using h3

theorem writeSeq_append (a : List (List Char × List Char × List Char)) :
    ∀ (c : CacheState) (b : List (List Char × List Char × List Char)),
      writeSeq c (a ++ b) =
        match writeSeq c a with
        | none => none
        | some c1 => writeSeq c1 b := by
  induction a with
  | nil => intro c b; rfl
  | cons t rest ih =>
    intro c b
    rw [show (t :: rest) ++ b = t :: (rest ++ b) from rfl]
    rw [show writeSeq c (t :: (rest ++ b)) =
        (match cacheWrite c t.1 t.2.1 t.2.2 with
         | none => none
         | some c1 => writeSeq c1 (rest ++ b)) from rfl]
    rw [show writeSeq c (t :: rest) =
        (match cacheWrite c t.1 t.2.1 t.2.2 with
         | none => none
         | some c1 => writeSeq c1 rest) from rfl]
    cases cacheWrite c t.1 t.2.1 t.2.2 with
    | none => rfl
    | some c1 => exact ih c1 b

theorem mapErase_append {α β : Type} [DecidableEq α] (a b : List (α × β)) (k : α) :
    mapErase (a ++ b) k = mapErase a k ++ mapErase b k := by
  induction a with
  | nil => rfl
  | cons e a ih =>
    rw [show (e :: a) ++ b = e :: (a ++ b) from rfl]
    by_cases hf : e.1 = k
    · rw [show mapErase (e :: (a ++ b)) k = mapErase (a ++ b) k from by
          simp [mapErase, hf],
        show mapErase (e :: a) k = mapErase a k from by simp [mapErase, hf]]
      exact ih
    · rw [show mapErase (e :: (a ++ b)) k = e :: mapErase (a ++ b) k from by
          simp [mapErase, hf],
        show mapErase (e :: a) k = e :: mapErase a k from by simp [mapErase, hf],
        ih]
      rfl

theorem cacheWriteStep_evict (n : Nat) (t0 : List Char × List Char × List Char)
    (mid : List (List Char × List Char × List Char))
    (t : List Char × List Char × List Char)
    (hlen : (t0 :: mid).length = n)
    (hnodup : ((t0 :: mid).map (fun u => u.1)).Nodup)
    (hkey : t.1 ∉ (t0 :: mid).map (fun u => u.1)) :
    (cacheWriteStep (stateOf n (t0 :: mid)) t.1 t.2.1 t.2.2).documents =
        (t.1, t.2.2) :: docsOf mid ∧
    (cacheWriteStep (stateOf n (t0 :: mid)) t.1 t.2.1 t.2.2).mimeTypes =
        (t.1, t.2.1) :: mimesOf mid := by
  have hidx0 : (((t0 :: mid).length : Int)).tmod (n : Int) = 0 := by
    rw [hlen]
    exact Int.tmod_self
  have hcond : ((n : Int)) ≤ ((trackerOf (t0 :: mid)).length : Int) := by
    rw [trackerOf_length, hlen]
  have hexp : mapLookup (trackerOf (t0 :: mid)) 0 = some t0.1 := by
    rw [trackerOf_lookup_zero]
    rfl
  have h1 : t0.1 ∉ mid.map (fun u => u.1) := by
    rw [List.map_cons, List.nodup_cons] at hnodup
    exact hnodup.1
  have ht1 : t.1 ∉ mid.map (fun u => u.1) := by
    intro hm
    exact hkey (by rw [List.map_cons]; exact List.mem_cons_of_mem _ hm)
  have hdocs_erase : mapErase (docsOf (t0 :: mid)) t0.1 = docsOf mid := by
    have hco : docsOf (t0 :: mid) = docsOf mid ++ (t0.1, t0.2.2) :: [] := by
      unfold docsOf
      simp
    rw [hco, mapErase_append,
      mapErase_of_not_mem t0.1 (docsOf mid) (by
        rw [keysOf_docsOf]
        intro hm
        exact h1 (List.mem_reverse.mp hm)),
      show mapErase ((t0.1, t0.2.2) :: []) t0.1 = [] from by simp [mapErase]]
    simp
  have hmimes_erase : mapErase (mimesOf (t0 :: mid)) t0.1 = mimesOf mid := by
    have hco : mimesOf (t0 :: mid) = mimesOf mid ++ (t0.1, t0.2.1) :: [] := by
      unfold mimesOf
      simp
    rw [hco, mapErase_append,
      mapErase_of_not_mem t0.1 (mimesOf mid) (by
        rw [keysOf_mimesOf]
        intro hm
        exact h1 (List.mem_reverse.mp hm)),
      show mapErase ((t0.1, t0.2.1) :: []) t0.1 = [] from by simp [mapErase]]
    simp
  have hd : (cacheWriteStep (stateOf n (t0 :: mid)) t.1 t.2.1 t.2.2).documents =
      mapInsert (mapErase (docsOf (t0 :: mid)) t0.1) t.1 t.2.2 := by
    unfold cacheWriteStep stateOf
    dsimp only
    rw [if_pos hcond, hidx0, hexp]
    rfl
  have hm : (cacheWriteStep (stateOf n (t0 :: mid)) t.1 t.2.1 t.2.2).mimeTypes =
      mapInsert (mapErase (mimesOf (t0 :: mid)) t0.1) t.1 t.2.1 := by
    unfold cacheWriteStep stateOf
    dsimp only
    rw [if_pos hcond, hidx0, hexp]
    rfl
  constructor
  · rw [hd, hdocs_erase,
      show mapInsert (docsOf mid) t.1 t.2.2 =
        (t.1, t.2.2) :: mapErase (docsOf mid) t.1 from rfl,
      mapErase_of_not_mem t.1 (docsOf mid) (by
        rw [keysOf_docsOf]
        intro hmem
        exact ht1 (List.mem_reverse.mp hmem))]
  · rw [hm, hmimes_erase,
      show mapInsert (mimesOf mid) t.1 t.2.1 =
        (t.1, t.2.1) :: mapErase (mimesOf mid) t.1 from rfl,
      mapErase_of_not_mem t.1 (mimesOf mid) (by
        rw [keysOf_mimesOf]
        intro hmem
        exact ht1 (List.mem_reverse.mp hmem))]

/-- C3: a cache constructed with capacity n > 0 never holds more than n
entries in either content map, whatever sequence of Writes is performed; and
inserting n+1 distinct keys into a fresh cache evicts exactly the oldest
key: after the (n+1)-th insertion the first key is gone from both the
document and the MIME map while every later key is still present with its
stored body and MIME.  Reads are modelled as pure state observers
(cache.Read only takes the shared lock), so lookups cannot change eviction
positions. -/
theorem c3_cache_fifo (n : Nat) (hn : 0 < n)
    (ops ts : List (List Char × List Char × List Char))
    (hts : ts.length = n + 1) (hnd : (ts.map (fun t => t.1)).Nodup) :
    (∃ c, writeSeq (mkCache (n : Int)) ops = some c ∧
      c.documents.length ≤ n ∧ c.mimeTypes.length ≤ n) ∧
    (∃ c t0 rest, ts = t0 :: rest ∧
      writeSeq (mkCache (n : Int)) ts = some c ∧
      mapLookup c.documents t0.1 = none ∧
      mapLookup c.mimeTypes t0.1 = none ∧
      ∀ t ∈ rest, mapLookup c.documents t.1 = some t.2.2 ∧
        mapLookup c.mimeTypes t.1 = some t.2.1) := by
  constructor
  · obtain ⟨c1, hc1, hinv⟩ :=
      writeSeq_inv n hn ops (mkCache (n : Int)) (cacheInv_mkCache n hn)
    exact ⟨c1, hc1, cacheInv_bound n c1 hinv⟩
  · cases ts with
    | nil =>
      simp at hts
    | cons t0 rest =>
      rcases List.eq_nil_or_concat rest with hre | ⟨mid, tlast, hre⟩
      · subst hre
        simp at hts
        omega
      · rw [List.concat_eq_append] at hre
        subst hre
        have hlen_init : (t0 :: mid).length = n := by
          simp at hts
          simp
          omega
        have hnd2 := hnd
        rw [List.map_cons, List.map_append] at hnd2
        have hinit_nodup : ((t0 :: mid).map (fun u => u.1)).Nodup := by
          rw [List.map_cons]
          rw [List.nodup_cons] at hnd2 ⊢
          exact ⟨fun hmem => hnd2.1 (List.mem_append_left _ hmem),
            (List.nodup_append.mp hnd2.2).1⟩
        have htlast_not : tlast.1 ∉ (t0 :: mid).map (fun u => u.1) := by
          rw [List.map_cons]
          rw [List.nodup_cons] at hnd2
          intro hmem
          rcases List.mem_cons.mp hmem with h | h
          · exact hnd2.1 (List.mem_append_right _ (by simp [h.symm]))
          · exact (List.nodup_append.mp hnd2.2).2.2 h (by simp)
        have hfresh := writeSeq_fresh n hn (t0 :: mid) []
          (by simp [hlen_init]) (by simpa using hinit_nodup)
        rw [stateOf_nil] at hfresh
        simp only [List.nil_append] at hfresh
        have hpos : 0 < (stateOf n (t0 :: mid)).size := by
          show (0 : Int) < (n : Int)
          exact_mod_cast hn
        obtain ⟨hd, hm⟩ :=
          cacheWriteStep_evict n t0 mid tlast hlen_init hinit_nodup htlast_not
        have hne0 : ¬(tlast.1 = t0.1) := by
          intro h
          exact htlast_not (by rw [h, List.map_cons]; exact List.mem_cons_self _ _)
        have hmid_nodup : (mid.map (fun u => u.1)).Nodup := by
          rw [List.map_cons, List.nodup_cons] at hinit_nodup
          exact hinit_nodup.2
        have ht0_not : t0.1 ∉ mid.map (fun u => u.1) := by
          rw [List.map_cons, List.nodup_cons] at hinit_nodup
          exact hinit_nodup.1
        refine ⟨cacheWriteStep (stateOf n (t0 :: mid)) tlast.1 tlast.2.1 tlast.2.2,
          t0, mid ++ tlast :: [], rfl, ?_, ?_, ?_, ?_⟩
        · rw [show t0 :: (mid ++ tlast :: []) = (t0 :: mid) ++ tlast :: [] from rfl,
            writeSeq_append, hfresh]
          dsimp only
          rw [show writeSeq (stateOf n (t0 :: mid)) (tlast :: []) =
              (match cacheWrite (stateOf n (t0 :: mid)) tlast.1 tlast.2.1 tlast.2.2 with
               | none => none
               | some c1 => writeSeq c1 []) from rfl,
            cacheWrite_pos _ _ _ _ hpos]
          rfl
        · rw [hd,
            show mapLookup ((tlast.1, tlast.2.2) :: docsOf mid) t0.1 =
              if tlast.1 = t0.1 then some tlast.2.2
              else mapLookup (docsOf mid) t0.1 from rfl,
            if_neg hne0]
          apply mapLookup_none_of_not_mem
          rw [keysOf_docsOf]
          intro hmem
          exact ht0_not (List.mem_reverse.mp hmem)
        · rw [hm,
            show mapLookup ((tlast.1, tlast.2.1) :: mimesOf mid) t0.1 =
              if tlast.1 = t0.1 then some tlast.2.1
              else mapLookup (mimesOf mid) t0.1 from rfl,
            if_neg hne0]
          apply mapLookup_none_of_not_mem
          rw [keysOf_mimesOf]
          intro hmem
          exact ht0_not (List.mem_reverse.mp hmem)
        · intro t htmem
          rcases List.mem_append.mp htmem with hmid | hla
          · have hneq : ¬(tlast.1 = t.1) := by
              intro h
              apply htlast_not
              rw [h, List.map_cons]
              exact List.mem_cons_of_mem _ (List.mem_map_of_mem _ hmid)
            constructor
            · rw [hd,
                show mapLookup ((tlast.1, tlast.2.2) :: docsOf mid) t.1 =
                  if tlast.1 = t.1 then some tlast.2.2
                  else mapLookup (docsOf mid) t.1 from rfl,
                if_neg hneq]
              apply mapLookup_of_mem_nodup
              · rw [keysOf_docsOf]
                exact List.nodup_reverse.mpr hmid_nodup
              · unfold docsOf
                exact List.mem_reverse.mpr (List.mem_map_of_mem _ hmid)
            · rw [hm,
                show mapLookup ((tlast.1, tlast.2.1) :: mimesOf mid) t.1 =
                  if tlast.1 = t.1 then some tlast.2.1
                  else mapLookup (mimesOf mid) t.1 from rfl,
                if_neg hneq]
              apply mapLookup_of_mem_nodup
              · rw [keysOf_mimesOf]
                exact List.nodup_reverse.mpr hmid_nodup
              · unfold mimesOf
                exact List.mem_reverse.mpr (List.mem_map_of_mem _ hmid)
          · have ht : t = tlast := by simpa using hla
            subst ht
            constructor
            · rw [hd]
              simp [mapLookup]
            · rw [hm]
              simp [mapLookup]

/-- Witness for C3 at capacity 1 with two distinct keys: the second
insertion evicts the first. -/
theorem c3_cache_fifo_witness :
    (0 < 1) ∧
    ((("/a".data, mimeTypeGemini, "A".data) ::
        ("/b".data, mimeTypeGemini, "B".data) :: []).length = 1 + 1) ∧
    ((("/a".data, mimeTypeGemini, "A".data) ::
        ("/b".data, mimeTypeGemini, "B".data) :: []).map (fun t => t.1)).Nodup ∧
    ((∃ c, writeSeq (mkCache (1 : Int))
        (("/a".data, mimeTypeGemini, "A".data) ::
          ("/b".data, mimeTypeGemini, "B".data) :: []) = some c ∧
        c.documents.length ≤ 1 ∧ c.mimeTypes.length ≤ 1) ∧
      (∃ c t0 rest,
        (("/a".data, mimeTypeGemini, "A".data) ::
          ("/b".data, mimeTypeGemini, "B".data) :: []) = t0 :: rest ∧
        writeSeq (mkCache (1 : Int))
          (("/a".data, mimeTypeGemini, "A".data) ::
            ("/b".data, mimeTypeGemini, "B".data) :: []) = some c ∧
        mapLookup c.documents t0.1 = none ∧
        mapLookup c.mimeTypes t0.1 = none ∧
        ∀ t ∈ rest, mapLookup c.documents t.1 = some t.2.2 ∧
          mapLookup c.mimeTypes t.1 = some t.2.1)) :=
  ⟨by decide, by decide, by decide,
    c3_cache_fifo 1 (by decide)
      (("/a".data, mimeTypeGemini, "A".data) ::
        ("/b".data, mimeTypeGemini, "B".data) :: [])
      (("/a".data, mimeTypeGemini, "A".data) ::
        ("/b".data, mimeTypeGemini, "B".data) :: [])
      (by decide) (by decide)⟩

end Gmifs
